import Mathlib

/-!
Verification of the game-abstraction and adversarial-search core of the
`games` repository: the four game state machines (Halving, Tic-Tac-Toe,
Nim, Connect Four), the generic `Game.move` session logic, the Nim
closed-form oracle, and the minimax agent with alpha-beta pruning.
-/

set_option maxHeartbeats 1000000

/-- Extended integers with two infinities, modelling the Python floats
`-math.inf` and `math.inf` together with the integer utility values
used by the minimax agent. -/
inductive XInt where
  | negInf : XInt
  | fin : Int → XInt
  | posInf : XInt
deriving DecidableEq

namespace XInt

/-- The order on extended integers. -/
def xle : XInt → XInt → Prop
  | negInf, _ => True
  | fin _, negInf => False
  | fin m, fin n => m ≤ n
  | fin _, posInf => True
  | posInf, posInf => True
  | posInf, fin _ => False
  | posInf, negInf => False

/-- Decidability of the order. -/
def decXle : (a b : XInt) → Decidable (xle a b)
  | negInf, negInf => isTrue trivial
  | negInf, fin _ => isTrue trivial
  | negInf, posInf => isTrue trivial
  | fin _, negInf => isFalse id
  | fin m, fin n => inferInstanceAs (Decidable (m ≤ n))
  | fin _, posInf => isTrue trivial
  | posInf, posInf => isTrue trivial
  | posInf, fin _ => isFalse id
  | posInf, negInf => isFalse id

instance : LinearOrder XInt where
  le := xle
  le_refl a := by cases a <;> simp [xle]
  le_trans a b c := by
    cases a <;> cases b <;> cases c <;> simp [xle] <;> omega
  le_antisymm a b := by
    cases a <;> cases b <;> simp [xle] <;> omega
  le_total a b := by
    cases a <;> cases b <;> simp [xle] <;> omega
  decidableLE := decXle

lemma le_def (a b : XInt) : (a ≤ b) = xle a b := rfl

@[simp] lemma negInf_le (a : XInt) : negInf ≤ a := by
  rw [le_def] ; trivial

@[simp] lemma le_posInf (a : XInt) : a ≤ posInf := by
  cases a <;> rw [le_def] <;> trivial

@[simp] lemma fin_le_fin {m n : Int} : fin m ≤ fin n ↔ m ≤ n := by
  rw [le_def] ; exact Iff.rfl

@[simp] lemma le_negInf_iff {a : XInt} : a ≤ negInf ↔ a = negInf := by
  cases a <;> simp [le_def, xle]

@[simp] lemma posInf_le_iff {a : XInt} : posInf ≤ a ↔ a = posInf := by
  cases a <;> simp [le_def, xle]

@[simp] lemma negInf_lt_fin (n : Int) : negInf < fin n := by
  rw [lt_iff_le_not_le] ; simp [le_def, xle]

@[simp] lemma fin_lt_posInf (n : Int) : fin n < posInf := by
  rw [lt_iff_le_not_le] ; simp [le_def, xle]

@[simp] lemma negInf_lt_posInf : negInf < posInf := by
  rw [lt_iff_le_not_le] ; simp [le_def, xle]

@[simp] lemma fin_lt_fin {m n : Int} : fin m < fin n ↔ m < n := by
  rw [lt_iff_le_not_le, Int.lt_iff_le_not_le] ; simp

@[simp] lemma max_negInf (a : XInt) : max a negInf = a := by
  simp [max_def]

@[simp] lemma negInf_max (a : XInt) : max negInf a = a := by
  simp [max_def]

@[simp] lemma min_posInf (a : XInt) : min a posInf = a := by
  simp [min_def]

@[simp] lemma posInf_min (a : XInt) : min posInf a = a := by
  by_cases h : posInf ≤ a
  · rw [min_def, if_pos h] ; exact (posInf_le_iff.mp h).symm
  · rw [min_def, if_neg h]

lemma negInf_lt_of_ne {a : XInt} (h : a ≠ negInf) : negInf < a :=
  lt_of_le_of_ne (negInf_le a) (Ne.symm h)

lemma lt_posInf_of_ne {a : XInt} (h : a ≠ posInf) : a < posInf :=
  lt_of_le_of_ne (le_posInf a) h

end XInt

/-- The capability contract of `games/base_game.py` as consumed by the
search engine: legal actions, (pure) successor on legal actions,
terminal test and terminal utility. -/
structure GameM (S A : Type) where
  actions : S → List A
  next : S → A → S
  isTerminal : S → Bool
  utility : S → Int → Int

namespace Minimax

open XInt

/-- The Python truthiness test `self.max_depth and depth >= self.max_depth`
from `_minimax`: with `max_depth` equal to `None` or `0` the cutoff is
never taken; otherwise it fires once `depth >= max_depth`. -/
def depthCut (md : Option Int) (depth : Int) : Bool :=
  match md with
  | none => false
  | some d => decide (d ≠ 0) && decide (d ≤ depth)

/-- One iteration of the maximizing loop of `_minimax`: given the running
`(max_eval, alpha, broken)` accumulator, evaluate the child with the
current alpha, update `max_eval` and `alpha`, and record whether
`beta <= alpha` triggered the pruning `break` (after which the remaining
actions are skipped). -/
def abStepMax (be : XInt) (child : α → XInt → XInt) (acc : XInt × XInt × Bool) (a : α) :
    XInt × XInt × Bool :=
  if acc.2.2 then acc
  else (max acc.1 (child a acc.2.1), max acc.2.1 (child a acc.2.1),
        decide (be ≤ max acc.2.1 (child a acc.2.1)))

/-- One iteration of the minimizing loop of `_minimax`. -/
def abStepMin (al : XInt) (child : α → XInt → XInt) (acc : XInt × XInt × Bool) (a : α) :
    XInt × XInt × Bool :=
  if acc.2.2 then acc
  else (min acc.1 (child a acc.2.1), min acc.2.1 (child a acc.2.1),
        decide (min acc.2.1 (child a acc.2.1) ≤ al))

/-- `MinimaxAgent._minimax` with alpha-beta pruning, fuelled.  `md` is
`max_depth`, `pid` is `player_id`; the two final arguments are `alpha`
and `beta`. -/
def abMM (g : GameM S A) (md : Option Int) (pid : Int) :
    Nat → S → Int → Bool → XInt → XInt → XInt
  | 0, s, _, _, _, _ => .fin (g.utility s pid)
  | fuel+1, s, depth, maxing, al, be =>
    if g.isTerminal s || depthCut md depth then .fin (g.utility s pid)
    else if maxing then
      ((g.actions s).foldl
        (abStepMax be (fun a al' => abMM g md pid fuel (g.next s a) (depth+1) false al' be))
        (XInt.negInf, al, false)).1
    else
      ((g.actions s).foldl
        (abStepMin al (fun a be' => abMM g md pid fuel (g.next s a) (depth+1) true al be'))
        (XInt.posInf, be, false)).1

/-- Plain unpruned minimax, written from the specification's description
of full minimax: identical to `_minimax` except that no `(alpha, beta)`
bounds are threaded and no branch is ever skipped. -/
def mmVal (g : GameM S A) (md : Option Int) (pid : Int) :
    Nat → S → Int → Bool → XInt
  | 0, s, _, _ => .fin (g.utility s pid)
  | fuel+1, s, depth, maxing =>
    if g.isTerminal s || depthCut md depth then .fin (g.utility s pid)
    else if maxing then
      (g.actions s).foldl
        (fun m a => max m (mmVal g md pid fuel (g.next s a) (depth+1) false)) XInt.negInf
    else
      (g.actions s).foldl
        (fun m a => min m (mmVal g md pid fuel (g.next s a) (depth+1) true)) XInt.posInf

/-- The top-level loop of `choose_action`: `best_action`/`best_value`
accumulation where a later action replaces the incumbent only on a
strictly greater value. -/
def bestLoop (f : A → XInt) : List A → Option A → XInt → Option A
  | [], best, _ => best
  | a :: l, best, bv => if bv < f a then bestLoop f l (some a) (f a) else bestLoop f l best bv

/-- `MinimaxAgent.choose_action`: `None` when no action is available, the
single action when exactly one is legal, otherwise the strict-improvement
loop over `_minimax` values (each child searched with a full
`(-inf, inf)` window, `depth = 0`, minimizing to move). -/
def choose_action (g : GameM S A) (md : Option Int) (pid : Int) (fuel : Nat) (s : S) :
    Option A :=
  match g.actions s with
  | [] => none
  | [a] => some a
  | acts =>
      bestLoop (fun a => abMM g md pid fuel (g.next s a) 0 false XInt.negInf XInt.posInf)
        acts none XInt.negInf

/-- The same top-level selection driven by plain unpruned minimax values,
written from the specification's description. -/
def choose_action_noprune (g : GameM S A) (md : Option Int) (pid : Int) (fuel : Nat)
    (s : S) : Option A :=
  match g.actions s with
  | [] => none
  | [a] => some a
  | acts =>
      bestLoop (fun a => mmVal g md pid fuel (g.next s a) 0 false) acts none XInt.negInf

lemma foldl_max_init (f : α → XInt) (l : List α) (m : XInt) :
    l.foldl (fun x a => max x (f a)) m
      = max m (l.foldl (fun x a => max x (f a)) XInt.negInf) := by
  induction l generalizing m with
  | nil => simp
  | cons a l ih =>
    simp only [List.foldl_cons]
    rw [ih (max m (f a)), ih (max XInt.negInf (f a))]
    simp [max_assoc]

lemma le_foldl_max (f : α → XInt) (l : List α) (m : XInt) :
    m ≤ l.foldl (fun x a => max x (f a)) m := by
  rw [foldl_max_init] ; exact le_max_left _ _

lemma foldl_max_mono (f : α → XInt) (l : List α) {m m' : XInt} (h : m ≤ m') :
    l.foldl (fun x a => max x (f a)) m ≤ l.foldl (fun x a => max x (f a)) m' := by
  rw [foldl_max_init, foldl_max_init f l m']
  exact max_le_max h (le_refl _)

lemma foldl_min_init (f : α → XInt) (l : List α) (m : XInt) :
    l.foldl (fun x a => min x (f a)) m
      = min m (l.foldl (fun x a => min x (f a)) XInt.posInf) := by
  induction l generalizing m with
  | nil => simp
  | cons a l ih =>
    simp only [List.foldl_cons]
    rw [ih (min m (f a)), ih (min XInt.posInf (f a))]
    simp [min_assoc]

lemma foldl_min_le (f : α → XInt) (l : List α) (m : XInt) :
    l.foldl (fun x a => min x (f a)) m ≤ m := by
  rw [foldl_min_init] ; exact min_le_left _ _

lemma foldl_min_mono (f : α → XInt) (l : List α) {m m' : XInt} (h : m ≤ m') :
    l.foldl (fun x a => min x (f a)) m ≤ l.foldl (fun x a => min x (f a)) m' := by
  rw [foldl_min_init, foldl_min_init f l m']
  exact min_le_min h (le_refl _)

lemma abMaxL_skip (be : XInt) (child : α → XInt → XInt) (l : List α) (m al : XInt) :
    l.foldl (abStepMax be child) (m, al, true) = (m, al, true) := by
  induction l with
  | nil => rfl
  | cons a l ih => simpa [abStepMax] using ih

lemma abMinL_skip (al : XInt) (child : α → XInt → XInt) (l : List α) (m be : XInt) :
    l.foldl (abStepMin al child) (m, be, true) = (m, be, true) := by
  induction l with
  | nil => rfl
  | cons a l ih => simpa [abStepMin] using ih

/-- Fail-soft specification of the maximizing alpha-beta loop relative to
the plain maximizing fold, assuming the child searches satisfy the
corresponding specification. -/
lemma abMaxL_spec (be al₀ : XInt) (child : α → XInt → XInt) (w : α → XInt)
    (acts : List α) : ∀ (m al : XInt),
    (∀ a ∈ acts, ∀ al', al' < be →
        (child a al' ≤ al' → w a ≤ child a al') ∧
        (al' < child a al' → child a al' < be → child a al' = w a) ∧
        (be ≤ child a al' → child a al' ≤ w a)) →
    al = max al₀ m → al < be →
    m ≤ (acts.foldl (abStepMax be child) (m, al, false)).1 ∧
    ((acts.foldl (abStepMax be child) (m, al, false)).1 ≤ al₀ →
      acts.foldl (fun x a => max x (w a)) m ≤ (acts.foldl (abStepMax be child) (m, al, false)).1) ∧
    (al₀ < (acts.foldl (abStepMax be child) (m, al, false)).1 →
      (acts.foldl (abStepMax be child) (m, al, false)).1 < be →
      (acts.foldl (abStepMax be child) (m, al, false)).1
        = acts.foldl (fun x a => max x (w a)) m) ∧
    (be ≤ (acts.foldl (abStepMax be child) (m, al, false)).1 →
      (acts.foldl (abStepMax be child) (m, al, false)).1
        ≤ acts.foldl (fun x a => max x (w a)) m) := by
  induction acts with
  | nil =>
    intro m al hspec hal hlt
    simp only [List.foldl_nil]
    refine ⟨le_refl _, fun _ => le_refl _, fun _ _ => by simp, fun hbe => ?_⟩
    exact absurd (lt_of_le_of_lt (le_trans hbe (hal ▸ le_max_right al₀ m)) hlt)
      (lt_irrefl be)
  | cons a acts ih =>
    intro m al hspec hal hlt
    have hmem : a ∈ a :: acts := List.mem_cons_self a acts
    have hstep : abStepMax be child (m, al, false) a
        = (max m (child a al), max al (child a al),
           decide (be ≤ max al (child a al))) := rfl
    simp only [List.foldl_cons, hstep]
    have hm_le_al : m ≤ al := hal ▸ le_max_right al₀ m
    have hal0_le_al : al₀ ≤ al := hal ▸ le_max_left al₀ m
    have hcs := hspec a hmem al hlt
    by_cases hbr : be ≤ max al (child a al)
    · -- pruning break: the remaining actions are skipped
      rw [decide_eq_true hbr, abMaxL_skip]
      have hbv : be ≤ child a al := by
        rcases le_max_iff.mp hbr with h | h
        · exact absurd (lt_of_le_of_lt h hlt) (lt_irrefl be)
        · exact h
      have hwv : child a al ≤ w a := hcs.2.2 hbv
      have hmv : m ≤ child a al :=
        le_of_lt (lt_of_le_of_lt hm_le_al (lt_of_lt_of_le hlt hbv))
      have hr : max m (child a al) = child a al := max_eq_right hmv
      simp only [hr]
      refine ⟨hmv, fun h => ?_, fun _ h => ?_, fun _ => ?_⟩
      · exact absurd (lt_of_le_of_lt (le_trans h hal0_le_al) (lt_of_lt_of_le hlt hbv))
          (lt_irrefl _)
      · exact absurd (lt_of_le_of_lt hbv h) (lt_irrefl be)
      · calc child a al ≤ w a := hwv
          _ ≤ max m (w a) := le_max_right _ _
          _ ≤ acts.foldl (fun x a => max x (w a)) (max m (w a)) := le_foldl_max _ _ _
    · -- no break: continue with updated accumulator
      rw [decide_eq_false hbr]
      have hlt' : max al (child a al) < be := not_le.mp hbr
      have hal' : max al (child a al) = max al₀ (max m (child a al)) := by
        rw [hal, max_assoc]
      obtain ⟨ih1, ih2, ih3, ih4⟩ :=
        ih (max m (child a al)) (max al (child a al))
          (fun a' ha' => hspec a' (List.mem_cons_of_mem a ha')) hal' hlt'
      rcases le_or_lt (child a al) al with hva | hva
      · -- the child failed low (value ≤ current alpha)
        have hwa : w a ≤ child a al := hcs.1 hva
        have hmw : max m (w a) ≤ max m (child a al) := max_le_max (le_refl m) hwa
        have hMM' : acts.foldl (fun x a => max x (w a)) (max m (w a))
            ≤ acts.foldl (fun x a => max x (w a)) (max m (child a al)) :=
          foldl_max_mono _ _ hmw
        refine ⟨le_trans (le_max_left _ _) ih1, fun h => le_trans hMM' (ih2 h),
          fun h1 h2 => ?_, fun h => ?_⟩
        · -- exact value case
          have hR := foldl_max_init (fun x => w x) acts (max m (child a al))
          have hR2 := foldl_max_init (fun x => w x) acts (max m (w a))
          set R := acts.foldl (fun x a => max x (w a)) XInt.negInf with hRdef
          have hr' : (acts.foldl (abStepMax be child)
              (max m (child a al), max al (child a al), false)).1
              = max (max m (child a al)) R := by rw [ih3 h1 h2, hR]
          rcases le_or_lt (max m (child a al)) R with hmr | hmr
          · rw [hR2, hr', max_eq_right hmr,
              max_eq_right (le_trans hmw hmr)]
          · -- the fold is decided by the initial accumulator
            have hvm : child a al ≤ al₀ ∨ child a al ≤ m := by
              have := le_trans hva (le_of_eq hal)
              exact le_max_iff.mp this
            have hrm : (acts.foldl (abStepMax be child)
                (max m (child a al), max al (child a al), false)).1 = m := by
              rw [hr', max_eq_left (le_of_lt hmr)]
              rcases hvm with hv | hv
              · have hle : max m (child a al) ≤ al := by
                  have : max m (child a al) ≤ max al₀ m :=
                    max_le (le_max_right _ _) (le_trans hv (le_max_left _ _))
                  exact le_of_le_of_eq this hal.symm
                have h1' : al₀ < max m (child a al) := by
                  have := h1 ; rw [hr', max_eq_left (le_of_lt hmr)] at this
                  exact this
                rcases le_max_iff.mp (hle.trans (le_of_eq hal)) with h' | h'
                · exact absurd (lt_of_lt_of_le h1' h') (lt_irrefl al₀)
                · exact le_antisymm h' (le_max_left _ _)
              · exact max_eq_left hv
            rw [hr', max_eq_left (le_of_lt hmr)] at hrm ⊢
            have hvm' : child a al ≤ m := by
              have := le_max_right m (child a al) ; rw [hrm] at this ; exact this
            rw [hR2]
            have : max m (w a) = m := max_eq_left (le_trans hwa hvm')
            rw [this, hrm, max_eq_left]
            rw [hrm] at hmr ; exact le_of_lt hmr
        · -- fail high transfers through the true values
          have hR := foldl_max_init (fun x => w x) acts (max m (child a al))
          set R := acts.foldl (fun x a => max x (w a)) XInt.negInf with hRdef
          have h4 := ih4 h
          rw [hR] at h4
          have hmvlt : max m (child a al) < be :=
            lt_of_le_of_lt (max_le hm_le_al hva) hlt
          have hrR : (acts.foldl (abStepMax be child)
              (max m (child a al), max al (child a al), false)).1 ≤ R := by
            rcases le_max_iff.mp h4 with h' | h'
            · exact absurd (lt_of_le_of_lt (le_trans h h') hmvlt).false (by simp)
            · exact h'
          calc (acts.foldl (abStepMax be child)
                (max m (child a al), max al (child a al), false)).1 ≤ R := hrR
            _ ≤ max (max m (w a)) R := le_max_right _ _
            _ = acts.foldl (fun x a => max x (w a)) (max m (w a)) :=
                (foldl_max_init _ _ _).symm
      · -- the child value is exact: alpha < value < beta
        have hvb : child a al < be :=
          lt_of_le_of_lt (le_trans (le_max_right al _) (le_of_eq rfl)) hlt'
        have hveq : child a al = w a := hcs.2.1 hva hvb
        rw [← hveq]
        exact ⟨le_trans (le_max_left _ _) ih1, ih2, ih3, ih4⟩

/-- Fail-soft specification of the minimizing alpha-beta loop relative to
the plain minimizing fold. -/
lemma abMinL_spec (al be₀ : XInt) (child : α → XInt → XInt) (w : α → XInt)
    (acts : List α) : ∀ (m be : XInt),
    (∀ a ∈ acts, ∀ be', al < be' →
        (child a be' ≤ al → w a ≤ child a be') ∧
        (al < child a be' → child a be' < be' → child a be' = w a) ∧
        (be' ≤ child a be' → child a be' ≤ w a)) →
    be = min be₀ m → al < be →
    (acts.foldl (abStepMin al child) (m, be, false)).1 ≤ m ∧
    ((acts.foldl (abStepMin al child) (m, be, false)).1 ≤ al →
      acts.foldl (fun x a => min x (w a)) m ≤ (acts.foldl (abStepMin al child) (m, be, false)).1) ∧
    (al < (acts.foldl (abStepMin al child) (m, be, false)).1 →
      (acts.foldl (abStepMin al child) (m, be, false)).1 < be₀ →
      (acts.foldl (abStepMin al child) (m, be, false)).1
        = acts.foldl (fun x a => min x (w a)) m) ∧
    (be₀ ≤ (acts.foldl (abStepMin al child) (m, be, false)).1 →
      (acts.foldl (abStepMin al child) (m, be, false)).1
        ≤ acts.foldl (fun x a => min x (w a)) m) := by
  induction acts with
  | nil =>
    intro m be hspec hbe hlt
    simp only [List.foldl_nil]
    exact ⟨le_refl _, fun _ => le_refl _, fun _ _ => by simp, fun _ => le_refl _⟩
  | cons a acts ih =>
    intro m be hspec hbe hlt
    have hmem : a ∈ a :: acts := List.mem_cons_self a acts
    have hstep : abStepMin al child (m, be, false) a
        = (min m (child a be), min be (child a be),
           decide (min be (child a be) ≤ al)) := rfl
    simp only [List.foldl_cons, hstep]
    have hbe_le_m : be ≤ m := hbe ▸ min_le_right be₀ m
    have hbe_le_be0 : be ≤ be₀ := hbe ▸ min_le_left be₀ m
    have hcs := hspec a hmem be hlt
    by_cases hbr : min be (child a be) ≤ al
    · -- pruning break: the remaining actions are skipped
      rw [decide_eq_true hbr, abMinL_skip]
      have hbv : child a be ≤ al := by
        rcases min_le_iff.mp hbr with h | h
        · exact absurd (lt_of_lt_of_le hlt h) (lt_irrefl al)
        · exact h
      have hwv : w a ≤ child a be := hcs.1 hbv
      have hmv : child a be ≤ m :=
        le_of_lt (lt_of_lt_of_le (lt_of_le_of_lt hbv hlt) hbe_le_m)
      have hr : min m (child a be) = child a be := min_eq_right hmv
      simp only [hr]
      refine ⟨hmv, fun _ => ?_, fun h _ => ?_, fun h => ?_⟩
      · calc acts.foldl (fun x a => min x (w a)) (min m (w a))
            ≤ min m (w a) := foldl_min_le _ _ _
          _ ≤ w a := min_le_right _ _
          _ ≤ child a be := hwv
      · exact absurd (lt_of_lt_of_le h hbv) (lt_irrefl al)
      · exact absurd (lt_of_lt_of_le (lt_of_le_of_lt (le_trans h hbv) hlt) hbe_le_be0)
          (lt_irrefl be₀)
    · -- no break: continue with updated accumulator
      rw [decide_eq_false hbr]
      have hlt' : al < min be (child a be) := not_le.mp hbr
      have hbe' : min be (child a be) = min be₀ (min m (child a be)) := by
        rw [hbe, min_assoc]
      obtain ⟨ih1, ih2, ih3, ih4⟩ :=
        ih (min m (child a be)) (min be (child a be))
          (fun a' ha' => hspec a' (List.mem_cons_of_mem a ha')) hbe' hlt'
      rcases le_or_lt be (child a be) with hvb | hvb
      · -- the child failed high (value ≥ current beta)
        have hwa : child a be ≤ w a := hcs.2.2 hvb
        have hmw : min m (child a be) ≤ min m (w a) := min_le_min (le_refl m) hwa
        have hMM' : acts.foldl (fun x a => min x (w a)) (min m (child a be))
            ≤ acts.foldl (fun x a => min x (w a)) (min m (w a)) :=
          foldl_min_mono _ _ hmw
        refine ⟨le_trans ih1 (min_le_left _ _), fun h => ?_,
          fun h1 h2 => ?_, fun h => le_trans (ih4 h) hMM'⟩
        · -- fail low transfers through the true values
          have hR := foldl_min_init (fun x => w x) acts (min m (child a be))
          set R := acts.foldl (fun x a => min x (w a)) XInt.posInf with hRdef
          have h2 := ih2 h
          rw [hR] at h2
          have hbmv : be ≤ min m (child a be) := le_min hbe_le_m hvb
          have hrlt : (acts.foldl (abStepMin al child)
              (min m (child a be), min be (child a be), false)).1
              < min m (child a be) :=
            lt_of_le_of_lt h (lt_of_lt_of_le hlt hbmv)
          have hRr : R ≤ (acts.foldl (abStepMin al child)
              (min m (child a be), min be (child a be), false)).1 := by
            rcases min_le_iff.mp h2 with h' | h'
            · exact absurd (lt_of_le_of_lt h' hrlt) (lt_irrefl _)
            · exact h'
          calc acts.foldl (fun x a => min x (w a)) (min m (w a))
              = min (min m (w a)) R := foldl_min_init _ _ _
            _ ≤ R := min_le_right _ _
            _ ≤ _ := hRr
        · -- exact value case
          have hr' := ih3 h1 h2
          have hsplit : be₀ ≤ child a be ∨ m ≤ child a be :=
            min_le_iff.mp (hbe ▸ hvb)
          rcases hsplit with hv | hv
          · have hR := foldl_min_init (fun x => w x) acts (min m (child a be))
            have hR2 := foldl_min_init (fun x => w x) acts (min m (w a))
            set R := acts.foldl (fun x a => min x (w a)) XInt.posInf with hRdef
            rcases le_or_lt R (min m (child a be)) with hRm | hRm
            · rw [hr', hR, min_eq_right hRm, hR2,
                min_eq_right (le_trans hRm hmw)]
            · have hrv : (acts.foldl (abStepMin al child)
                  (min m (child a be), min be (child a be), false)).1
                  = min m (child a be) := by
                rw [hr', hR, min_eq_left (le_of_lt hRm)]
              rcases min_cases m (child a be) with ⟨hmin, hmv⟩ | ⟨hmin, hmv⟩
              · -- the minimum is the running value m
                have hmwa : min m (w a) = m :=
                  min_eq_left (le_trans hmv hwa)
                rw [hrv, hmin, hR2, hmwa]
                rw [hmin] at hRm
                rw [min_eq_left (le_of_lt hRm)]
              · -- the minimum is the child value, contradicting r < be₀
                rw [hrv, hmin] at h2
                exact absurd (lt_of_le_of_lt hv h2) (lt_irrefl be₀)
          · -- the child value is at least m, so both folds coincide
            have hmin : min m (child a be) = m := min_eq_left hv
            have hmwa : min m (w a) = m := min_eq_left (le_trans hv hwa)
            rw [hr', hmin, hmwa]
      · -- the child value is exact: alpha < value < beta
        have hva : al < child a be :=
          lt_of_lt_of_le hlt' (min_le_right be _)
        have hveq : child a be = w a := hcs.2.1 hva hvb
        rw [← hveq]
        exact ⟨le_trans ih1 (min_le_left _ _), ih2, ih3, ih4⟩

/-- Fail-soft correctness of `_minimax`: at any `(alpha, beta)` window the
pruned value bounds the plain minimax value from the correct side, and is
exact when it falls strictly inside the window. -/
lemma abMM_spec (g : GameM S A) (md : Option Int) (pid : Int) :
    ∀ (fuel : Nat) (s : S) (depth : Int) (maxing : Bool) (al be : XInt), al < be →
      (abMM g md pid fuel s depth maxing al be ≤ al →
        mmVal g md pid fuel s depth maxing ≤ abMM g md pid fuel s depth maxing al be) ∧
      (al < abMM g md pid fuel s depth maxing al be →
        abMM g md pid fuel s depth maxing al be < be →
        abMM g md pid fuel s depth maxing al be = mmVal g md pid fuel s depth maxing) ∧
      (be ≤ abMM g md pid fuel s depth maxing al be →
        abMM g md pid fuel s depth maxing al be ≤ mmVal g md pid fuel s depth maxing) := by
  intro fuel
  induction fuel with
  | zero =>
    intro s depth maxing al be _
    simp only [abMM, mmVal]
    exact ⟨fun _ => le_refl _, fun _ _ => by simp, fun _ => le_refl _⟩
  | succ fuel ih =>
    intro s depth maxing al be hlt
    simp only [abMM, mmVal]
    by_cases hterm : (g.isTerminal s || depthCut md depth) = true
    · simp only [hterm, if_true]
      exact ⟨fun _ => le_refl _, fun _ _ => by simp, fun _ => le_refl _⟩
    · simp only [hterm, if_false]
      cases maxing
      · -- minimizing node
        simp only [Bool.false_eq_true, if_false]
        have hpm : be = min be posInf := (min_posInf be).symm
        obtain ⟨h1, h2, h3, h4⟩ :=
          abMinL_spec al be
            (fun a be' => abMM g md pid fuel (g.next s a) (depth+1) true al be')
            (fun a => mmVal g md pid fuel (g.next s a) (depth+1) true)
            (g.actions s) XInt.posInf be
            (fun a _ be' hlt' => ih (g.next s a) (depth+1) true al be' hlt')
            hpm hlt
        exact ⟨h2, h3, h4⟩
      · -- maximizing node
        simp only [if_true]
        have hpm : al = max al negInf := (max_negInf al).symm
        obtain ⟨h1, h2, h3, h4⟩ :=
          abMaxL_spec be al
            (fun a al' => abMM g md pid fuel (g.next s a) (depth+1) false al' be)
            (fun a => mmVal g md pid fuel (g.next s a) (depth+1) false)
            (g.actions s) XInt.negInf al
            (fun a _ al' hlt' => ih (g.next s a) (depth+1) false al' be hlt')
            hpm hlt
        exact ⟨h2, h3, h4⟩

/-- With the full `(-inf, inf)` window — the window `choose_action` uses —
`_minimax` with alpha-beta pruning computes exactly the plain minimax
value. -/
lemma abMM_eq_mmVal (g : GameM S A) (md : Option Int) (pid : Int)
    (fuel : Nat) (s : S) (depth : Int) (maxing : Bool) :
    abMM g md pid fuel s depth maxing XInt.negInf XInt.posInf
      = mmVal g md pid fuel s depth maxing := by
  obtain ⟨h1, h2, h3⟩ :=
    abMM_spec g md pid fuel s depth maxing XInt.negInf XInt.posInf XInt.negInf_lt_posInf
  cases hcase : abMM g md pid fuel s depth maxing XInt.negInf XInt.posInf with
  | negInf =>
    rw [hcase] at h1
    have := h1 (le_refl _)
    exact (XInt.le_negInf_iff.mp this).symm
  | fin n =>
    rw [hcase] at h2
    exact hcase ▸ (h2 (by simp) (by simp)) |>.symm ▸ (h2 (by simp) (by simp))
  | posInf =>
    rw [hcase] at h3
    have := h3 (le_refl _)
    exact (XInt.posInf_le_iff.mp (le_of_eq (le_antisymm (XInt.le_posInf _) this).symm)).symm

/-- `bestLoop` only depends on the values of the scoring function. -/
lemma bestLoop_congr {f₁ f₂ : A → XInt} (h : ∀ a, f₁ a = f₂ a) :
    ∀ (l : List A) (best : Option A) (bv : XInt),
      bestLoop f₁ l best bv = bestLoop f₂ l best bv := by
  intro l
  induction l with
  | nil => intro best bv ; rfl
  | cons a l ihl =>
    intro best bv
    simp only [bestLoop, h a]
    split
    · exact ihl _ _
    · exact ihl _ _

/-- Enabling alpha-beta pruning never changes the chosen move, for any game
satisfying the `GameM` contract, any `max_depth`, any player and any
fuel. -/
lemma choose_eq_noprune (g : GameM S A) (md : Option Int) (pid : Int)
    (fuel : Nat) (s : S) :
    choose_action g md pid fuel s = choose_action_noprune g md pid fuel s := by
  have hf : ∀ a : A, abMM g md pid fuel (g.next s a) 0 false XInt.negInf XInt.posInf
      = mmVal g md pid fuel (g.next s a) 0 false :=
    fun a => abMM_eq_mmVal g md pid fuel (g.next s a) 0 false
  cases hacts : g.actions s with
  | nil => simp [choose_action, choose_action_noprune, hacts]
  | cons a tail =>
    cases tail with
    | nil => simp [choose_action, choose_action_noprune, hacts]
    | cons b l =>
      simp only [choose_action, choose_action_noprune, hacts]
      exact bestLoop_congr hf _ _ _

/-- Characterization of `bestLoop` starting from an incumbent `b` whose
value is `bv`: the result is the first element of the chain of strict
improvements, i.e. the first element attaining the maximal value. -/
lemma bestLoop_some_spec (f : A → XInt) :
    ∀ (l : List A) (b : A) (bv : XInt), bv = f b →
      ((∀ x ∈ l, f x ≤ bv) ∧ bestLoop f l (some b) bv = some b) ∨
      (∃ k, ∃ hk : k < l.length, bestLoop f l (some b) bv = some (l.get ⟨k, hk⟩) ∧
        bv < f (l.get ⟨k, hk⟩) ∧
        (∀ j (hj : j < l.length), f (l.get ⟨j, hj⟩) ≤ f (l.get ⟨k, hk⟩)) ∧
        (∀ j (hj : j < l.length), j < k → f (l.get ⟨j, hj⟩) < f (l.get ⟨k, hk⟩))) := by
  intro l
  induction l with
  | nil =>
    intro b bv _
    exact Or.inl ⟨fun x hx => absurd hx (List.not_mem_nil x), rfl⟩
  | cons a l ihl =>
    intro b bv hbv
    by_cases hc : bv < f a
    · have hstep : bestLoop f (a :: l) (some b) bv = bestLoop f l (some a) (f a) := by
        simp [bestLoop, hc]
      rcases ihl a (f a) rfl with ⟨hall, heq⟩ | ⟨k, hk, heq, hlt, hmax, hfirst⟩
      · refine Or.inr ⟨0, by simp, ?_, ?_, ?_, ?_⟩
        · rw [hstep, heq] ; rfl
        · simpa using hc
        · intro j hj
          cases j with
          | zero => exact le_refl _
          | succ j' =>
            simpa using hall (l.get ⟨j', by simpa using hj⟩) (l.get_mem _ _)
        · intro j hj hj0 ; exact absurd hj0 (Nat.not_lt_zero j)
      · refine Or.inr ⟨k + 1, by simpa using Nat.succ_lt_succ hk, ?_, ?_, ?_, ?_⟩
        · rw [hstep, heq] ; rfl
        · exact lt_trans hc (by simpa using hlt)
        · intro j hj
          cases j with
          | zero => exact le_of_lt (by simpa using hlt)
          | succ j' => simpa using hmax j' (by simpa using hj)
        · intro j hj hjk
          cases j with
          | zero => simpa using hlt
          | succ j' =>
            simpa using hfirst j' (by simpa using hj) (Nat.lt_of_succ_lt_succ hjk)
    · have hstep : bestLoop f (a :: l) (some b) bv = bestLoop f l (some b) bv := by
        simp [bestLoop, hc]
      have hab : f a ≤ bv := not_lt.mp hc
      rcases ihl b bv hbv with ⟨hall, heq⟩ | ⟨k, hk, heq, hlt, hmax, hfirst⟩
      · refine Or.inl ⟨?_, by rw [hstep, heq]⟩
        intro x hx
        rcases List.mem_cons.mp hx with rfl | hx'
        · exact hab
        · exact hall x hx'
      · refine Or.inr ⟨k + 1, by simpa using Nat.succ_lt_succ hk, ?_, ?_, ?_, ?_⟩
        · rw [hstep, heq] ; rfl
        · simpa using hlt
        · intro j hj
          cases j with
          | zero => exact le_of_lt (lt_of_le_of_lt hab (by simpa using hlt))
          | succ j' => simpa using hmax j' (by simpa using hj)
        · intro j hj hjk
          cases j with
          | zero => exact lt_of_le_of_lt hab (by simpa using hlt)
          | succ j' =>
            simpa using hfirst j' (by simpa using hj) (Nat.lt_of_succ_lt_succ hjk)

/-- Characterization of `bestLoop` from the initial `(None, -inf)`
accumulator: unless every value is `-inf`, the result is the first element
attaining the maximal value. -/
lemma bestLoop_none_spec (f : A → XInt) :
    ∀ (l : List A),
      ((∀ x ∈ l, f x = XInt.negInf) ∧ bestLoop f l none XInt.negInf = none) ∨
      (∃ k, ∃ hk : k < l.length,
        bestLoop f l none XInt.negInf = some (l.get ⟨k, hk⟩) ∧
        XInt.negInf < f (l.get ⟨k, hk⟩) ∧
        (∀ j (hj : j < l.length), f (l.get ⟨j, hj⟩) ≤ f (l.get ⟨k, hk⟩)) ∧
        (∀ j (hj : j < l.length), j < k → f (l.get ⟨j, hj⟩) < f (l.get ⟨k, hk⟩))) := by
  intro l
  induction l with
  | nil => exact Or.inl ⟨fun x hx => absurd hx (List.not_mem_nil x), rfl⟩
  | cons a l ihl =>
    by_cases hc : XInt.negInf < f a
    · have hstep : bestLoop f (a :: l) none XInt.negInf = bestLoop f l (some a) (f a) := by
        simp [bestLoop, hc]
      rcases bestLoop_some_spec f l a (f a) rfl with
        ⟨hall, heq⟩ | ⟨k, hk, heq, hlt, hmax, hfirst⟩
      · refine Or.inr ⟨0, by simp, ?_, ?_, ?_, ?_⟩
        · rw [hstep, heq] ; rfl
        · simpa using hc
        · intro j hj
          cases j with
          | zero => exact le_refl _
          | succ j' =>
            simpa using hall (l.get ⟨j', by simpa using hj⟩) (l.get_mem _ _)
        · intro j hj hj0 ; exact absurd hj0 (Nat.not_lt_zero j)
      · refine Or.inr ⟨k + 1, by simpa using Nat.succ_lt_succ hk, ?_, ?_, ?_, ?_⟩
        · rw [hstep, heq] ; rfl
        · exact lt_trans hc (by simpa using hlt)
        · intro j hj
          cases j with
          | zero => exact le_of_lt (by simpa using hlt)
          | succ j' => simpa using hmax j' (by simpa using hj)
        · intro j hj hjk
          cases j with
          | zero => simpa using hlt
          | succ j' =>
            simpa using hfirst j' (by simpa using hj) (Nat.lt_of_succ_lt_succ hjk)
    · have hstep : bestLoop f (a :: l) none XInt.negInf
          = bestLoop f l none XInt.negInf := by
        simp [bestLoop, hc]
      have hab : f a = XInt.negInf := by
        have := not_lt.mp hc ; exact XInt.le_negInf_iff.mp this
      rcases ihl with ⟨hall, heq⟩ | ⟨k, hk, heq, hlt, hmax, hfirst⟩
      · refine Or.inl ⟨?_, by rw [hstep, heq]⟩
        intro x hx
        rcases List.mem_cons.mp hx with rfl | hx'
        · exact hab
        · exact hall x hx'
      · refine Or.inr ⟨k + 1, by simpa using Nat.succ_lt_succ hk, ?_, ?_, ?_, ?_⟩
        · rw [hstep, heq] ; rfl
        · simpa using hlt
        · intro j hj
          cases j with
          | zero =>
            show f a ≤ f (l.get ⟨k, hk⟩)
            rw [hab] ; simp
          | succ j' => simpa using hmax j' (by simpa using hj)
        · intro j hj hjk
          cases j with
          | zero =>
            show f a < f (l.get ⟨k, hk⟩)
            rw [hab] ; exact hlt
          | succ j' =>
            simpa using hfirst j' (by simpa using hj) (Nat.lt_of_succ_lt_succ hjk)

lemma foldl_max_fin (f : α → XInt) :
    ∀ (l : List α) (m : XInt), (∀ a ∈ l, ∃ n, f a = XInt.fin n) →
      (∃ n, m = XInt.fin n) →
      ∃ n, l.foldl (fun x a => max x (f a)) m = XInt.fin n := by
  intro l
  induction l with
  | nil => intro m _ hm ; simpa using hm
  | cons a l ihl =>
    intro m hl hm
    obtain ⟨na, hna⟩ := hl a (List.mem_cons_self a l)
    obtain ⟨nm, hnm⟩ := hm
    refine ihl (max m (f a)) (fun x hx => hl x (List.mem_cons_of_mem a hx)) ?_
    rw [hna, hnm]
    rcases le_total (XInt.fin nm) (XInt.fin na) with h | h
    · exact ⟨na, max_eq_right h⟩
    · exact ⟨nm, max_eq_left h⟩

lemma foldl_min_fin (f : α → XInt) :
    ∀ (l : List α) (m : XInt), (∀ a ∈ l, ∃ n, f a = XInt.fin n) →
      (∃ n, m = XInt.fin n) →
      ∃ n, l.foldl (fun x a => min x (f a)) m = XInt.fin n := by
  intro l
  induction l with
  | nil => intro m _ hm ; simpa using hm
  | cons a l ihl =>
    intro m hl hm
    obtain ⟨na, hna⟩ := hl a (List.mem_cons_self a l)
    obtain ⟨nm, hnm⟩ := hm
    refine ihl (min m (f a)) (fun x hx => hl x (List.mem_cons_of_mem a hx)) ?_
    rw [hna, hnm]
    rcases le_total (XInt.fin nm) (XInt.fin na) with h | h
    · exact ⟨nm, min_eq_left h⟩
    · exact ⟨na, min_eq_right h⟩

/-- For a game whose action list is empty only at terminal states, every
plain minimax value is a finite integer. -/
lemma mmVal_fin (g : GameM S A) (md : Option Int) (pid : Int)
    (hne : ∀ t, g.actions t = [] → g.isTerminal t = true) :
    ∀ (fuel : Nat) (s : S) (depth : Int) (maxing : Bool),
      ∃ n : Int, mmVal g md pid fuel s depth maxing = XInt.fin n := by
  intro fuel
  induction fuel with
  | zero => intro s depth maxing ; exact ⟨g.utility s pid, rfl⟩
  | succ fuel ih =>
    intro s depth maxing
    simp only [mmVal]
    by_cases hterm : (g.isTerminal s || depthCut md depth) = true
    · simp only [hterm, if_true] ; exact ⟨g.utility s pid, rfl⟩
    · simp only [hterm, if_false]
      have hacts : g.actions s ≠ [] := by
        intro h0
        rw [Bool.or_eq_true, not_or] at hterm
        exact hterm.1 (hne s h0)
      cases maxing
      · simp only [Bool.false_eq_true, if_false]
        cases hl : g.actions s with
        | nil => exact absurd hl hacts
        | cons a tail =>
          simp only [List.foldl_cons]
          refine foldl_min_fin _ tail (min XInt.posInf _)
            (fun x _ => ih (g.next s x) (depth+1) true) ?_
          obtain ⟨n, hn⟩ := ih (g.next s a) (depth+1) true
          rw [hn] ; exact ⟨n, by simp⟩
      · simp only [if_true]
        cases hl : g.actions s with
        | nil => exact absurd hl hacts
        | cons a tail =>
          simp only [List.foldl_cons]
          refine foldl_max_fin _ tail (max XInt.negInf _)
            (fun x _ => ih (g.next s x) (depth+1) false) ?_
          obtain ⟨n, hn⟩ := ih (g.next s a) (depth+1) false
          rw [hn] ; exact ⟨n, by simp⟩

lemma foldl_congr_fun {f₁ f₂ : β → α → β} (h : ∀ b a, f₁ b a = f₂ b a) :
    ∀ (l : List α) (b : β), l.foldl f₁ b = l.foldl f₂ b := by
  intro l
  induction l with
  | nil => intro b ; rfl
  | cons a l ihl => intro b ; simp only [List.foldl_cons, h b a] ; exact ihl _

/-- `_minimax` depends on `max_depth` only through the cutoff test. -/
lemma abMM_congr_md (g : GameM S A) (md₁ md₂ : Option Int) (pid : Int)
    (h : ∀ d, depthCut md₁ d = depthCut md₂ d) :
    ∀ (fuel : Nat) (s : S) (depth : Int) (maxing : Bool) (al be : XInt),
      abMM g md₁ pid fuel s depth maxing al be = abMM g md₂ pid fuel s depth maxing al be := by
  intro fuel
  induction fuel with
  | zero => intro s depth maxing al be ; rfl
  | succ fuel ih =>
    intro s depth maxing al be
    simp only [abMM, h depth]
    by_cases hterm : (g.isTerminal s || depthCut md₂ depth) = true
    · simp only [hterm, if_true]
    · simp only [hterm, if_false]
      cases maxing
      · simp only [Bool.false_eq_true, if_false]
        have hstep : ∀ acc a, abStepMin al
              (fun a be' => abMM g md₁ pid fuel (g.next s a) (depth+1) true al be') acc a
            = abStepMin al
              (fun a be' => abMM g md₂ pid fuel (g.next s a) (depth+1) true al be') acc a := by
          intro acc a ; simp only [abStepMin, ih]
        rw [foldl_congr_fun hstep]
      · simp only [if_true]
        have hstep : ∀ acc a, abStepMax be
              (fun a al' => abMM g md₁ pid fuel (g.next s a) (depth+1) false al' be) acc a
            = abStepMax be
              (fun a al' => abMM g md₂ pid fuel (g.next s a) (depth+1) false al' be) acc a := by
          intro acc a ; simp only [abStepMax, ih]
        rw [foldl_congr_fun hstep]

/-- `choose_action` depends on `max_depth` only through the cutoff test. -/
lemma choose_action_congr_md (g : GameM S A) (md₁ md₂ : Option Int) (pid : Int)
    (h : ∀ d, depthCut md₁ d = depthCut md₂ d) (fuel : Nat) (s : S) :
    choose_action g md₁ pid fuel s = choose_action g md₂ pid fuel s := by
  cases hacts : g.actions s with
  | nil => simp [choose_action, hacts]
  | cons a tail =>
    cases tail with
    | nil => simp [choose_action, hacts]
    | cons b l =>
      simp only [choose_action, hacts]
      exact bestLoop_congr
        (fun a => abMM_congr_md g md₁ md₂ pid h fuel (g.next s a) 0 false _ _) _ _ _

end Minimax

/-- Kinds of Python exceptions the transition functions can raise:
the explicit `ValueError` (`InvalidAction`) and the `IndexError` produced
by out-of-range `numpy` indexing. -/
inductive PyErr where
  | valueError : PyErr
  | indexError : PyErr
deriving DecidableEq

/-- `Game.move` from `base_game.py`: raise `ValueError` when the action is
not in the current action list, otherwise delegate to the game's `next`.
Validation happens before any state is computed or assigned. -/
def Game.move {S A : Type} [DecidableEq A] (actions : S → List A)
    (next : S → A → Except PyErr S) (s : S) (a : A) : Except PyErr S :=
  if a ∈ actions s then next s a else .error .valueError

/-- The mutable session of `base_game.py`, reduced to its `state` field
(`current_player` is the `player` projection of the state): applying a
move either updates the state or leaves it untouched and reports the
error. -/
def Game.sessionApply {S A : Type} [DecidableEq A] (actions : S → List A)
    (next : S → A → Except PyErr S) (s : S) (a : A) : S × Option PyErr :=
  match Game.move actions next s a with
  | .ok s' => (s', none)
  | .error e => (s, some e)

namespace Halving

/-- State of `HalvingGame`: `(number, current_player)`. -/
abbrev HState := Int × Int

def initial_state (starting_number : Int) : HState := (starting_number, 1)

/-- `HalvingGame.is_terminal`: the number is 0. -/
def is_terminal (s : HState) : Bool := s.1 == 0

/-- `HalvingGame.actions`: empty at terminal states, otherwise both
`"subtract"` and `"halve"`. -/
def actions (s : HState) : List String :=
  if is_terminal s then [] else ["subtract", "halve"]

/-- `HalvingGame.next`: subtract one or floor-halve, switching player;
`ValueError` on an unknown action string. -/
def next (s : HState) (action : String) : Except PyErr HState :=
  if action = "subtract" then .ok (s.1 - 1, -s.2)
  else if action = "halve" then .ok (s.1 / 2, -s.2)
  else .error .valueError

/-- The pure successor used by search (only ever applied to legal
actions, where it agrees with `next`). -/
def nextP (s : HState) (action : String) : HState :=
  match next s action with
  | .ok s' => s'
  | .error _ => s

/-- `HalvingGame.utility`: 0 at non-terminal states, else +1 for the
player who moved last (the negation of the player to act) and -1 for the
other. -/
def utility (s : HState) (player : Int) : Int :=
  if ¬ is_terminal s then 0
  else if player = -s.2 then 1 else -1

/-- `HalvingGame.player`. -/
def player (s : HState) : Int := s.2

/-- The `GameM` view of `HalvingGame` consumed by the minimax agent. -/
def game : GameM HState String := ⟨actions, nextP, is_terminal, utility⟩

lemma next_ok_of_mem_h {s : HState} {a : String} (h : a ∈ actions s) :
    next s a = .ok (nextP s a) := by
  unfold actions at h
  by_cases ht : is_terminal s
  · simp [ht] at h
  · simp only [ht, if_false] at h
    rcases List.mem_cons.mp h with rfl | h'
    · rfl
    · rcases List.mem_cons.mp h' with rfl | h''
      · rfl
      · exact absurd h'' (List.not_mem_nil _)

lemma actions_ne_empty_iff (s : HState) : actions s = [] ↔ is_terminal s = true := by
  unfold actions
  by_cases ht : is_terminal s <;> simp [ht]

end Halving

namespace Nim

/-- State of `NimGame`: `(piles, current_player)`. -/
abbrev NState := List Nat × Int

/-- `NimGame.get_nim_sum`: XOR-reduce of the pile sizes. -/
def get_nim_sum (piles : List Nat) : Nat := piles.foldl (fun x p => x ^^^ p) 0

/-- `NimGame.actions`: for each non-empty pile (in index order), removing
`1` to `size` objects. -/
def actions (s : NState) : List (Int × Int) :=
  (List.range s.1.length).bind (fun i =>
    if 0 < s.1.getD i 0 then
      (List.range' 1 (s.1.getD i 0)).map (fun r : Nat => ((i : Int), (r : Int)))
    else [])

/-- `NimGame.next`: explicit checks for the pile index and removal count,
then remove the objects and switch player. -/
def next (s : NState) (action : Int × Int) : Except PyErr NState :=
  if action.1 < 0 ∨ (s.1.length : Int) ≤ action.1 then .error .valueError
  else if action.2 < 1 ∨ (s.1.getD action.1.toNat 0 : Int) < action.2 then .error .valueError
  else .ok (s.1.set action.1.toNat (s.1.getD action.1.toNat 0 - action.2.toNat), -s.2)

/-- The pure successor used by search. -/
def nextP (s : NState) (action : Int × Int) : NState :=
  match next s action with
  | .ok s' => s'
  | .error _ => s

/-- `NimGame.is_terminal`: all piles empty. -/
def is_terminal (s : NState) : Bool := s.1.all (fun p => p == 0)

/-- `NimGame.utility`: 0 at non-terminal states, else +1 for the player
who removed the last object. -/
def utility (s : NState) (player : Int) : Int :=
  if ¬ is_terminal s then 0
  else if player = -s.2 then 1 else -1

/-- `NimGame.player`. -/
def player (s : NState) : Int := s.2

/-- The `GameM` view of `NimGame`. -/
def game : GameM NState (Int × Int) := ⟨actions, nextP, is_terminal, utility⟩

/-- The scan inside `get_optimal_move`: first pile (in index order) whose
target `size XOR nim-sum` is below its size, removing the difference. -/
def findMove (ns : Nat) : List Nat → Nat → Option (Nat × Nat)
  | [], _ => none
  | p :: rest, i =>
      if p ^^^ ns < p then some (i, p - (p ^^^ ns)) else findMove ns rest (i + 1)

/-- `NimGame.get_optimal_move`: `None` on nim-sum zero, otherwise the
first winning removal. -/
def get_optimal_move (s : NState) : Option (Nat × Nat) :=
  if get_nim_sum s.1 = 0 then none else findMove (get_nim_sum s.1) s.1 0

lemma foldl_xor_init (l : List Nat) : ∀ x : Nat,
    l.foldl (fun a b => a ^^^ b) x = x ^^^ l.foldl (fun a b => a ^^^ b) 0 := by
  induction l with
  | nil => intro x ; simp
  | cons p rest ih =>
    intro x
    simp only [List.foldl_cons]
    rw [ih (x ^^^ p), ih (0 ^^^ p)]
    simp [Nat.xor_assoc]

lemma nim_sum_cons (p : Nat) (l : List Nat) :
    get_nim_sum (p :: l) = p ^^^ get_nim_sum l := by
  unfold get_nim_sum
  simp only [List.foldl_cons]
  rw [foldl_xor_init]
  simp

lemma nim_sum_set (l : List Nat) : ∀ (i : Nat), i < l.length → ∀ (t : Nat),
    get_nim_sum (l.set i t) = get_nim_sum l ^^^ l.getD i 0 ^^^ t := by
  induction l with
  | nil => intro i hi ; simp at hi
  | cons p rest ih =>
    intro i hi t
    cases i with
    | zero =>
      simp only [List.set, List.getD_cons_zero]
      rw [nim_sum_cons, nim_sum_cons]
      rw [Nat.xor_comm p (get_nim_sum rest), Nat.xor_cancel_right,
        Nat.xor_comm t (get_nim_sum rest)]
    | succ i' =>
      simp only [List.set, List.getD_cons_succ]
      rw [nim_sum_cons, nim_sum_cons, ih i' (by simpa using hi) t]
      simp [Nat.xor_assoc]

lemma mem_actions_n {s : NState} {a : Int × Int} :
    a ∈ actions s ↔ ∃ j : Nat, j < s.1.length ∧ a.1 = (j : Int) ∧
      1 ≤ a.2 ∧ a.2 ≤ (s.1.getD j 0 : Int) := by
  unfold actions
  rw [List.mem_bind]
  constructor
  · rintro ⟨j, hj, hmem⟩
    rw [List.mem_range] at hj
    by_cases hp : 0 < s.1.getD j 0
    · rw [if_pos hp] at hmem
      obtain ⟨r, hr, heq⟩ := List.mem_map.mp hmem
      rw [List.mem_range'_1] at hr
      refine ⟨j, hj, ?_, ?_, ?_⟩
      · rw [← heq]
      · rw [← heq] ; show (1 : Int) ≤ (r : Int) ; exact_mod_cast hr.1
      · rw [← heq] ; show (r : Int) ≤ ((s.1.getD j 0 : Nat) : Int)
        exact_mod_cast (by omega : r ≤ s.1.getD j 0)
    · rw [if_neg hp] at hmem
      exact absurd hmem (List.not_mem_nil a)
  · rintro ⟨j, hj, h1, h2, h3⟩
    have hp : 0 < s.1.getD j 0 := by
      rcases Nat.eq_zero_or_pos (s.1.getD j 0) with h0 | h0
      · rw [h0] at h3 ; simp at h3 ; omega
      · exact h0
    refine ⟨j, List.mem_range.mpr hj, ?_⟩
    rw [if_pos hp]
    have hmem' : a.2.toNat ∈ List.range' 1 (s.1.getD j 0) := by
      rw [List.mem_range'_1]
      omega
    refine List.mem_map.mpr ⟨a.2.toNat, hmem', ?_⟩
    have ha2 : ((a.2.toNat : Int)) = a.2 := Int.toNat_of_nonneg (by omega)
    rw [ha2, ← h1]

lemma findMove_some (ns : Nat) : ∀ (l : List Nat) (base : Nat) (i rm : Nat),
    findMove ns l base = some (i, rm) →
    ∃ j, j < l.length ∧ i = base + j ∧ l.getD j 0 ^^^ ns < l.getD j 0 ∧
      rm = l.getD j 0 - (l.getD j 0 ^^^ ns) ∧
      ∀ j', j' < j → ¬(l.getD j' 0 ^^^ ns < l.getD j' 0) := by
  intro l
  induction l with
  | nil => intro base i rm h ; exact absurd h (by simp [findMove])
  | cons p rest ih =>
    intro base i rm h
    unfold findMove at h
    by_cases hp : p ^^^ ns < p
    · rw [if_pos hp] at h
      obtain ⟨hi, hrm⟩ := Prod.mk.injEq .. ▸ Option.some.inj h
      refine ⟨0, by simp, by omega, by simpa, by simpa using hrm.symm,
        fun j' hj' => absurd hj' (Nat.not_lt_zero _)⟩
    · rw [if_neg hp] at h
      obtain ⟨j, hj, hij, hlt, hrm, hfirst⟩ := ih (base + 1) i rm h
      refine ⟨j + 1, by simpa using Nat.succ_lt_succ hj, by omega,
        by simpa using hlt, by simpa using hrm, ?_⟩
      intro j' hj'
      cases j' with
      | zero => simpa using hp
      | succ j'' => simpa using hfirst j'' (Nat.lt_of_succ_lt_succ hj')

lemma findMove_none (ns : Nat) : ∀ (l : List Nat) (base : Nat),
    findMove ns l base = none → ∀ j, j < l.length →
      ¬(l.getD j 0 ^^^ ns < l.getD j 0) := by
  intro l
  induction l with
  | nil => intro base _ j hj ; simp at hj
  | cons p rest ih =>
    intro base h j hj
    unfold findMove at h
    by_cases hp : p ^^^ ns < p
    · rw [if_pos hp] at h ; exact absurd h (by simp)
    · rw [if_neg hp] at h
      cases j with
      | zero => simpa using hp
      | succ j' => simpa using ih (base + 1) h j' (by simpa using hj)

lemma testBit_foldl_xor (i : Nat) : ∀ (l : List Nat) (x : Nat),
    (∀ p ∈ l, Nat.testBit p i = false) →
    Nat.testBit (l.foldl (fun a b => a ^^^ b) x) i = Nat.testBit x i := by
  intro l
  induction l with
  | nil => intro x _ ; rfl
  | cons p rest ih =>
    intro x hall
    simp only [List.foldl_cons]
    rw [ih (x ^^^ p) (fun q hq => hall q (List.mem_cons_of_mem p hq))]
    rw [Nat.testBit_xor, hall p (List.mem_cons_self p rest)]
    simp

lemma exists_winning_pile {l : List Nat} (h : get_nim_sum l ≠ 0) :
    ∃ j, j < l.length ∧ l.getD j 0 ^^^ get_nim_sum l < l.getD j 0 := by
  obtain ⟨i, hbit, hhigh⟩ := Nat.exists_most_significant_bit h
  have hsome : ∃ p ∈ l, Nat.testBit p i = true := by
    by_contra hno
    push_neg at hno
    have hall : ∀ p ∈ l, Nat.testBit p i = false := by
      intro p hp
      cases hb : Nat.testBit p i
      · rfl
      · exact absurd hb (hno p hp)
    have := testBit_foldl_xor i l 0 hall
    unfold get_nim_sum at hbit
    rw [this] at hbit
    simp at hbit
  obtain ⟨p, hpmem, hpbit⟩ := hsome
  obtain ⟨⟨j, hj⟩, hget⟩ := List.mem_iff_get.mp hpmem
  have hgetD : l.getD j 0 = p := by
    rw [List.getD_eq_get l 0 hj, hget]
  refine ⟨j, hj, ?_⟩
  rw [hgetD]
  refine Nat.lt_of_testBit i ?_ hpbit ?_
  · rw [Nat.testBit_xor, hpbit, hbit] ; rfl
  · intro j' hj'
    rw [Nat.testBit_xor, hhigh j' hj']
    simp

lemma next_ok_of_mem_n {s : NState} {a : Int × Int} (h : a ∈ actions s) :
    next s a = .ok (s.1.set a.1.toNat (s.1.getD a.1.toNat 0 - a.2.toNat), -s.2) := by
  obtain ⟨j, hj, h1, h2, h3⟩ := mem_actions_n.mp h
  unfold next
  rw [if_neg, if_neg]
  · push_neg
    refine ⟨by omega, ?_⟩
    rw [h1] ; simpa using h3
  · push_neg
    constructor
    · omega
    · rw [h1] ; exact_mod_cast hj

lemma actions_empty_iff_n (s : NState) : actions s = [] ↔ is_terminal s = true := by
  constructor
  · intro hempty
    unfold is_terminal
    rw [List.all_eq_true]
    intro p hp
    obtain ⟨⟨j, hj⟩, hget⟩ := List.mem_iff_get.mp hp
    by_contra hne
    have hpos : 0 < p := Nat.pos_of_ne_zero (by simpa using hne)
    have hmem : ((j : Int), (1 : Int)) ∈ actions s := by
      rw [mem_actions_n]
      refine ⟨j, hj, rfl, le_refl _, ?_⟩
      rw [List.getD_eq_get s.1 0 hj, hget]
      show (1 : Int) ≤ (p : Int)
      exact_mod_cast hpos
    rw [hempty] at hmem
    exact absurd hmem (List.not_mem_nil _)
  · intro hterm
    unfold is_terminal at hterm
    rw [List.all_eq_true] at hterm
    rcases hacts : actions s with _ | ⟨a, rest⟩
    · rfl
    · have hmem : a ∈ actions s := by rw [hacts] ; exact List.mem_cons_self a rest
      obtain ⟨j, hj, h1, h2, h3⟩ := mem_actions_n.mp hmem
      have hz : s.1.getD j 0 = 0 := by
        have := hterm (s.1.get ⟨j, hj⟩) (s.1.get_mem _ _)
        rw [List.getD_eq_get s.1 0 hj]
        simpa using this
      rw [hz] at h3
      omega

end Nim

lemma forall_lt_three {P : Nat → Prop} : (∀ i < 3, P i) ↔ P 0 ∧ P 1 ∧ P 2 := by
  constructor
  · intro h ; exact ⟨h 0 (by omega), h 1 (by omega), h 2 (by omega)⟩
  · rintro ⟨h0, h1, h2⟩ i hi
    interval_cases i <;> assumption

lemma exists_lt_three {P : Nat → Prop} : (∃ i < 3, P i) ↔ P 0 ∨ P 1 ∨ P 2 := by
  constructor
  · rintro ⟨i, hi, h⟩
    interval_cases i
    · exact Or.inl h
    · exact Or.inr (Or.inl h)
    · exact Or.inr (Or.inr h)
  · rintro (h | h | h)
    · exact ⟨0, by omega, h⟩
    · exact ⟨1, by omega, h⟩
    · exact ⟨2, by omega, h⟩

lemma forall_lt_four {P : Nat → Prop} : (∀ i < 4, P i) ↔ P 0 ∧ P 1 ∧ P 2 ∧ P 3 := by
  constructor
  · intro h ; exact ⟨h 0 (by omega), h 1 (by omega), h 2 (by omega), h 3 (by omega)⟩
  · rintro ⟨h0, h1, h2, h3⟩ i hi
    interval_cases i <;> assumption

lemma exists_lt_four {P : Nat → Prop} : (∃ i < 4, P i) ↔ P 0 ∨ P 1 ∨ P 2 ∨ P 3 := by
  constructor
  · rintro ⟨i, hi, h⟩
    interval_cases i
    · exact Or.inl h
    · exact Or.inr (Or.inl h)
    · exact Or.inr (Or.inr (Or.inl h))
    · exact Or.inr (Or.inr (Or.inr h))
  · rintro (h | h | h | h)
    · exact ⟨0, by omega, h⟩
    · exact ⟨1, by omega, h⟩
    · exact ⟨2, by omega, h⟩
    · exact ⟨3, by omega, h⟩

lemma exists_lt_two {P : Nat → Prop} : (∃ i < 2, P i) ↔ P 0 ∨ P 1 := by
  constructor
  · rintro ⟨i, hi, h⟩
    interval_cases i
    · exact Or.inl h
    · exact Or.inr h
  · rintro (h | h)
    · exact ⟨0, by omega, h⟩
    · exact ⟨1, by omega, h⟩

lemma exists_lt_five {P : Nat → Prop} : (∃ i < 5, P i) ↔ P 0 ∨ P 1 ∨ P 2 ∨ P 3 ∨ P 4 := by
  constructor
  · rintro ⟨i, hi, h⟩
    interval_cases i
    · exact Or.inl h
    · exact Or.inr (Or.inl h)
    · exact Or.inr (Or.inr (Or.inl h))
    · exact Or.inr (Or.inr (Or.inr (Or.inl h)))
    · exact Or.inr (Or.inr (Or.inr (Or.inr h)))
  · rintro (h | h | h | h | h)
    · exact ⟨0, by omega, h⟩
    · exact ⟨1, by omega, h⟩
    · exact ⟨2, by omega, h⟩
    · exact ⟨3, by omega, h⟩
    · exact ⟨4, by omega, h⟩

namespace TicTacToe

/-- Board of `TicTacToeGame`: the 3x3 integer grid, accessed as a
function (only cells with both indices below 3 are ever consulted). -/
abbrev Board := Nat → Nat → Int

/-- State of `TicTacToeGame`: `(board, current_player)`. -/
abbrev TState := Board × Int

def initial_state : TState := (fun _ _ => 0, 1)

/-- `board.sum(axis=1)` entries. -/
def row_sum (b : Board) (r : Nat) : Int := b r 0 + b r 1 + b r 2

/-- `board.sum(axis=0)` entries. -/
def col_sum (b : Board) (c : Nat) : Int := b 0 c + b 1 c + b 2 c

/-- The eight line sums of `_check_winner`, in source order: row sums,
column sums, main diagonal trace, anti-diagonal trace. -/
def lines (b : Board) : List Int :=
  [row_sum b 0, row_sum b 1, row_sum b 2, col_sum b 0, col_sum b 1, col_sum b 2,
   b 0 0 + b 1 1 + b 2 2, b 0 2 + b 1 1 + b 2 0]

/-- `TicTacToeGame._check_winner`. -/
def check_winner (b : Board) : Option Int :=
  if (3 : Int) ∈ lines b then some 1
  else if (-3 : Int) ∈ lines b then some (-1)
  else none

/-- `np.any(board == 0)` over the 3x3 grid. -/
def has_empty (b : Board) : Bool :=
  (List.range 3).any (fun r => (List.range 3).any (fun c => b r c == 0))

/-- `TicTacToeGame.is_terminal`: a winner exists or the board is full. -/
def is_terminal (s : TState) : Bool :=
  (check_winner s.1).isSome || !has_empty s.1

/-- `TicTacToeGame.actions`: the empty cells in `np.argwhere` row-major
order, empty at terminal states. -/
def actions (s : TState) : List (Int × Int) :=
  if is_terminal s then []
  else (List.range 3).bind (fun r =>
    (List.range 3).bind (fun c =>
      if s.1 r c == 0 then [((r : Int), (c : Int))] else []))

/-- Python/numpy index semantics on an axis of length 3: indices `-3..-1`
wrap around, anything outside `-3..2` raises `IndexError`. -/
def idx3 (i : Int) : Option Nat :=
  if 0 ≤ i ∧ i < 3 then some i.toNat
  else if -3 ≤ i ∧ i < 0 then some (i + 3).toNat
  else none

/-- `TicTacToeGame.next`: `ValueError` on an occupied cell, `IndexError`
for indices `numpy` rejects; indices in `-3..-1` wrap as in Python. -/
def next (s : TState) (action : Int × Int) : Except PyErr TState :=
  match idx3 action.1, idx3 action.2 with
  | some r, some c =>
      if s.1 r c ≠ 0 then .error .valueError
      else .ok ((fun r' c' => if r' = r ∧ c' = c then s.2 else s.1 r' c'), -s.2)
  | _, _ => .error .indexError

/-- The pure successor used by search. -/
def nextP (s : TState) (a : Int × Int) : TState :=
  match next s a with
  | .ok s' => s'
  | .error _ => s

/-- `TicTacToeGame.utility`. -/
def utility (s : TState) (player : Int) : Int :=
  if ¬ is_terminal s then 0
  else
    match check_winner s.1 with
    | some w => if w = player then 1 else -1
    | none => 0

/-- `TicTacToeGame.player`. -/
def player (s : TState) : Int := s.2

/-- The `GameM` view of `TicTacToeGame`. -/
def game : GameM TState (Int × Int) := ⟨actions, nextP, is_terminal, utility⟩

/-- States reachable from the initial empty board by legal moves. -/
inductive Reach : TState → Prop where
  | init : Reach initial_state
  | step {s : TState} {a : Int × Int} : Reach s → a ∈ actions s → Reach (nextP s a)

/-- The player fully occupies a length-3 line: a row, a column, or one of
the two diagonals (the specification's notion of a winning
configuration). -/
def hasLine (b : Board) (q : Int) : Prop :=
  (∃ r < 3, ∀ c < 3, b r c = q) ∨ (∃ c < 3, ∀ r < 3, b r c = q) ∨
  (∀ i < 3, b i i = q) ∨ (∀ i < 3, b i (2 - i) = q)

/-- All board cells hold `0`, `+1` or `-1`. -/
def cellsOk (b : Board) : Prop :=
  ∀ r < 3, ∀ c < 3, b r c = 0 ∨ b r c = 1 ∨ b r c = -1

lemma idx3_natCast (r : Nat) (hr : r < 3) : idx3 (r : Int) = some r := by
  unfold idx3
  rw [if_pos (by omega)]
  simp

lemma mem_actions_t {s : TState} {a : Int × Int} :
    a ∈ actions s ↔ is_terminal s = false ∧
      ∃ r : Nat, r < 3 ∧ ∃ c : Nat, c < 3 ∧ a = ((r : Int), (c : Int)) ∧ s.1 r c = 0 := by
  unfold actions
  by_cases ht : is_terminal s
  · rw [if_pos ht]
    simp [ht]
  · rw [if_neg ht]
    simp only [List.mem_bind, List.mem_range, eq_false_of_ne_true ht, true_and]
    constructor
    · rintro ⟨r, hr, c, hc, hmem⟩
      by_cases hz : s.1 r c = 0
      · rw [if_pos (by simpa using hz)] at hmem
        rcases List.mem_singleton.mp hmem with rfl
        exact ⟨r, hr, c, hc, rfl, hz⟩
      · rw [if_neg (by simpa using hz)] at hmem
        exact absurd hmem (List.not_mem_nil a)
    · rintro ⟨r, hr, c, hc, rfl, hz⟩
      exact ⟨r, hr, c, hc, by rw [if_pos (by simpa using hz)] ; exact List.mem_singleton.mpr rfl⟩

lemma next_of_mem_t {s : TState} {a : Int × Int} (h : a ∈ actions s) :
    ∃ r c : Nat, r < 3 ∧ c < 3 ∧ a = ((r : Int), (c : Int)) ∧ s.1 r c = 0 ∧
      next s a = .ok ((fun r' c' => if r' = r ∧ c' = c then s.2 else s.1 r' c'), -s.2) ∧
      nextP s a = ((fun r' c' => if r' = r ∧ c' = c then s.2 else s.1 r' c'), -s.2) := by
  obtain ⟨_, r, hr, c, hc, rfl, hz⟩ := mem_actions_t.mp h
  have hnext : next s ((r : Int), (c : Int))
      = .ok ((fun r' c' => if r' = r ∧ c' = c then s.2 else s.1 r' c'), -s.2) := by
    unfold next
    rw [idx3_natCast r hr, idx3_natCast c hc]
    simp only [Int.toNat_natCast]
    rw [if_neg (by simpa using hz)]
  exact ⟨r, c, hr, hc, rfl, hz, hnext, by unfold nextP ; rw [hnext]⟩

lemma is_terminal_false_iff_t (s : TState) :
    is_terminal s = false ↔ check_winner s.1 = none ∧ has_empty s.1 = true := by
  unfold is_terminal
  rw [Bool.or_eq_false_iff]
  constructor
  · rintro ⟨h1, h2⟩
    exact ⟨Option.not_isSome_iff_eq_none.mp (by simp [h1]), by simpa using h2⟩
  · rintro ⟨h1, h2⟩
    exact ⟨by simp [h1], by simpa using h2⟩

lemma check_winner_none_iff (b : Board) :
    check_winner b = none ↔ ¬((3 : Int) ∈ lines b) ∧ ¬((-3 : Int) ∈ lines b) := by
  unfold check_winner
  by_cases h3 : (3 : Int) ∈ lines b
  · rw [if_pos h3] ; simp [h3]
  · rw [if_neg h3]
    by_cases hm3 : (-3 : Int) ∈ lines b
    · rw [if_pos hm3] ; simp [h3, hm3]
    · rw [if_neg hm3] ; simp [h3, hm3]

lemma sum3_one {a b c : Int}
    (ha : a = 0 ∨ a = 1 ∨ a = -1) (hb : b = 0 ∨ b = 1 ∨ b = -1)
    (hc : c = 0 ∨ c = 1 ∨ c = -1) :
    (3 : Int) = a + b + c ↔ a = 1 ∧ b = 1 ∧ c = 1 := by omega

lemma sum3_negone {a b c : Int}
    (ha : a = 0 ∨ a = 1 ∨ a = -1) (hb : b = 0 ∨ b = 1 ∨ b = -1)
    (hc : c = 0 ∨ c = 1 ∨ c = -1) :
    (-3 : Int) = a + b + c ↔ a = -1 ∧ b = -1 ∧ c = -1 := by omega

lemma mem_lines_one {b : Board} (hok : cellsOk b) :
    ((3 : Int) ∈ lines b) ↔ hasLine b 1 := by
  have h00 := hok 0 (by omega) 0 (by omega)
  have h01 := hok 0 (by omega) 1 (by omega)
  have h02 := hok 0 (by omega) 2 (by omega)
  have h10 := hok 1 (by omega) 0 (by omega)
  have h11 := hok 1 (by omega) 1 (by omega)
  have h12 := hok 1 (by omega) 2 (by omega)
  have h20 := hok 2 (by omega) 0 (by omega)
  have h21 := hok 2 (by omega) 1 (by omega)
  have h22 := hok 2 (by omega) 2 (by omega)
  unfold lines row_sum col_sum hasLine
  simp only [List.mem_cons, List.not_mem_nil, or_false, exists_lt_three, forall_lt_three,
    Nat.sub_zero, show (2 : Nat) - 1 = 1 from rfl, show (2 : Nat) - 2 = 0 from rfl]
  rw [sum3_one h00 h01 h02, sum3_one h10 h11 h12, sum3_one h20 h21 h22,
    sum3_one h00 h10 h20, sum3_one h01 h11 h21, sum3_one h02 h12 h22,
    sum3_one h00 h11 h22, sum3_one h02 h11 h20]
  simp only [or_assoc]

lemma mem_lines_negone {b : Board} (hok : cellsOk b) :
    ((-3 : Int) ∈ lines b) ↔ hasLine b (-1) := by
  have h00 := hok 0 (by omega) 0 (by omega)
  have h01 := hok 0 (by omega) 1 (by omega)
  have h02 := hok 0 (by omega) 2 (by omega)
  have h10 := hok 1 (by omega) 0 (by omega)
  have h11 := hok 1 (by omega) 1 (by omega)
  have h12 := hok 1 (by omega) 2 (by omega)
  have h20 := hok 2 (by omega) 0 (by omega)
  have h21 := hok 2 (by omega) 1 (by omega)
  have h22 := hok 2 (by omega) 2 (by omega)
  unfold lines row_sum col_sum hasLine
  simp only [List.mem_cons, List.not_mem_nil, or_false, exists_lt_three, forall_lt_three,
    Nat.sub_zero, show (2 : Nat) - 1 = 1 from rfl, show (2 : Nat) - 2 = 0 from rfl]
  rw [sum3_negone h00 h01 h02, sum3_negone h10 h11 h12, sum3_negone h20 h21 h22,
    sum3_negone h00 h10 h20, sum3_negone h01 h11 h21, sum3_negone h02 h12 h22,
    sum3_negone h00 h11 h22, sum3_negone h02 h11 h20]
  simp only [or_assoc]

/-- A full line of `q` in a board updated with a single `p`-mark, `q ≠ p`,
was already present before the update. -/
lemma hasLine_of_update_t {b : Board} {rr cc : Nat} {p q : Int} (hpq : q ≠ p)
    (h : hasLine (fun r' c' => if r' = rr ∧ c' = cc then p else b r' c') q) :
    hasLine b q := by
  have hcell : ∀ r c : Nat,
      (if r = rr ∧ c = cc then p else b r c) = q → b r c = q := by
    intro r c hrc
    by_cases hif : r = rr ∧ c = cc
    · rw [if_pos hif] at hrc ; exact absurd hrc.symm hpq
    · rw [if_neg hif] at hrc ; exact hrc
  rcases h with ⟨r, hr, hcells⟩ | ⟨c, hc, hcells⟩ | hcells | hcells
  · exact Or.inl ⟨r, hr, fun c hc => hcell r c (hcells c hc)⟩
  · exact Or.inr (Or.inl ⟨c, hc, fun r hr => hcell r c (hcells r hr)⟩)
  · exact Or.inr (Or.inr (Or.inl (fun i hi => hcell i i (hcells i hi))))
  · exact Or.inr (Or.inr (Or.inr (fun i hi => hcell i (2 - i) (hcells i hi))))

lemma not_hasLine_zero_t (q : Int) (hq : q ≠ 0) : ¬ hasLine (fun _ _ => 0) q := by
  rintro (⟨r, _, hcells⟩ | ⟨c, _, hcells⟩ | hcells | hcells)
  · exact hq (hcells 0 (by omega)).symm
  · exact hq (hcells 0 (by omega)).symm
  · exact hq (hcells 0 (by omega)).symm
  · exact hq (hcells 0 (by omega)).symm

/-- Invariant of reachable Tic-Tac-Toe states: cells in `{0, +1, -1}`,
player in `{+1, -1}`, and not both players own complete lines. -/
lemma reach_inv_t : ∀ {s : TState}, Reach s →
    cellsOk s.1 ∧ (s.2 = 1 ∨ s.2 = -1) ∧ ¬(hasLine s.1 1 ∧ hasLine s.1 (-1)) := by
  intro s h
  induction h with
  | init =>
    refine ⟨fun r _ c _ => Or.inl rfl, Or.inl rfl, ?_⟩
    rintro ⟨h1, _⟩
    exact not_hasLine_zero_t 1 (by omega) h1
  | step hs hmem ih =>
    obtain ⟨hok, hpl, hnb⟩ := ih
    obtain ⟨r, c, hr, hc, rfl, hz, hnext, hnextP⟩ := next_of_mem_t hmem
    obtain ⟨hterm, _, _, _, _, _, _⟩ := mem_actions_t.mp hmem
    obtain ⟨hcw, _⟩ := (is_terminal_false_iff_t _).mp hterm
    obtain ⟨hno3, hnom3⟩ := (check_winner_none_iff _).mp hcw
    have hnoline1 := fun h => hno3 ((mem_lines_one hok).mpr h)
    have hnolinem1 := fun h => hnom3 ((mem_lines_negone hok).mpr h)
    rw [hnextP]
    refine ⟨?_, by rcases hpl with h | h <;> rw [h] <;> simp, ?_⟩
    · intro r' hr' c' hc'
      by_cases hif : r' = r ∧ c' = c
      · simp only [hif, if_true]
        rcases hpl with h | h <;> rw [h] <;> simp
      · simp only [hif, if_false]
        exact hok r' hr' c' hc'
    · rintro ⟨hl1, hlm1⟩
      rcases hpl with h | h
      · exact hnolinem1 (hasLine_of_update_t (by rw [h] ; omega) hlm1)
      · exact hnoline1 (hasLine_of_update_t (by rw [h] ; omega) hl1)

/-- For reachable states, `_check_winner` reports a winner exactly when
that player fully occupies a line. -/
lemma check_winner_iff_t {s : TState} (h : Reach s) {q : Int}
    (hq : q = 1 ∨ q = -1) :
    check_winner s.1 = some q ↔ hasLine s.1 q := by
  obtain ⟨hok, _, hnb⟩ := reach_inv_t h
  have hl1 := mem_lines_one hok
  have hlm1 := mem_lines_negone hok
  unfold check_winner
  by_cases h3 : (3 : Int) ∈ lines s.1
  · rw [if_pos h3]
    have hline1 : hasLine s.1 1 := hl1.mp h3
    rcases hq with rfl | rfl
    · simp [hline1]
    · constructor
      · intro hcon ; exact absurd (Option.some.inj hcon) (by omega)
      · intro hcon ; exact absurd ⟨hline1, hcon⟩ hnb
  · rw [if_neg h3]
    by_cases hm3 : (-3 : Int) ∈ lines s.1
    · rw [if_pos hm3]
      have hlinem1 : hasLine s.1 (-1) := hlm1.mp hm3
      rcases hq with rfl | rfl
      · constructor
        · intro hcon ; exact absurd (Option.some.inj hcon) (by omega)
        · intro hcon ; exact absurd ⟨hcon, hlinem1⟩ hnb
      · simp [hlinem1]
    · rw [if_neg hm3]
      rcases hq with rfl | rfl
      · simp [hl1.not.mp h3]
      · simp [hlm1.not.mp hm3]

end TicTacToe

namespace ConnectFour

/-- Board of `ConnectFourGame`: an `n x n` integer grid accessed as a
function (only cells with both indices below `n` are ever consulted). -/
abbrev Board := Nat → Nat → Int

/-- State of `ConnectFourGame`: `(board, current_player)`. -/
abbrev CState := Board × Int

def initial_state : CState := (fun _ _ => 0, 1)

/-- The `board[ro:ro+4, co:co+4]` sub-window. -/
def sub (b : Board) (ro co : Nat) : Board := fun i j => b (ro + i) (co + j)

def row_sum4 (w : Board) (r : Nat) : Int := w r 0 + w r 1 + w r 2 + w r 3

def col_sum4 (w : Board) (c : Nat) : Int := w 0 c + w 1 c + w 2 c + w 3 c

/-- The ten line sums of `_check_4x4_winner`, in source order. -/
def lines4 (w : Board) : List Int :=
  [row_sum4 w 0, row_sum4 w 1, row_sum4 w 2, row_sum4 w 3,
   col_sum4 w 0, col_sum4 w 1, col_sum4 w 2, col_sum4 w 3,
   w 0 0 + w 1 1 + w 2 2 + w 3 3, w 0 3 + w 1 2 + w 2 1 + w 3 0]

/-- `ConnectFourGame._check_4x4_winner`. -/
def check_4x4_winner (w : Board) : Option Int :=
  if (4 : Int) ∈ lines4 w then some 1
  else if (-4 : Int) ∈ lines4 w then some (-1)
  else none

/-- The `for row_offset in range(2): for col_offset in range(2):` loop of
`_check_winner`: return the first sub-window winner found. -/
def firstWin : List (Nat × Nat) → Board → Option Int
  | [], _ => none
  | (ro, co) :: rest, b =>
    match check_4x4_winner (sub b ro co) with
    | some w => some w
    | none => firstWin rest b

/-- The window offsets visited by the loop, in loop order. -/
def windows5 : List (Nat × Nat) := [(0, 0), (0, 1), (1, 0), (1, 1)]

/-- `ConnectFourGame._check_winner`: the plain 4x4 check for size 4, and
for size 5 the four overlapping 4x4 sub-windows in `(row_offset,
col_offset)` loop order, returning the first winner found. -/
def check_winner (n : Nat) (b : Board) : Option Int :=
  if n = 4 then check_4x4_winner b
  else if n = 5 then firstWin windows5 b
  else none

/-- `np.any(board == 0)` over the `n x n` grid. -/
def has_empty (n : Nat) (b : Board) : Bool :=
  (List.range n).any (fun r => (List.range n).any (fun c => b r c == 0))

/-- `ConnectFourGame.is_terminal`. -/
def is_terminal (n : Nat) (s : CState) : Bool :=
  (check_winner n s.1).isSome || !has_empty n s.1

/-- `ConnectFourGame.actions`: the columns whose top cell is empty, in
ascending order; empty at terminal states. -/
def actions (n : Nat) (s : CState) : List Int :=
  if is_terminal n s then []
  else ((List.range n).filter (fun c => s.1 0 c == 0)).map (fun c : Nat => (c : Int))

/-- `np.where(column == 0)[0][-1]`: the lowest empty row of a column. -/
def lowestEmpty (n : Nat) (b : Board) (c : Nat) : Option Nat :=
  ((List.range n).filter (fun r => b r c == 0)).getLast?

/-- `ConnectFourGame.next`: explicit column-range and column-full checks,
then drop the piece to the lowest empty row (with the source's vacuous
guard when the column has no empty cell). -/
def next (n : Nat) (s : CState) (action : Int) : Except PyErr CState :=
  if action < 0 ∨ (n : Int) ≤ action then .error .valueError
  else if s.1 0 action.toNat ≠ 0 then .error .valueError
  else
    .ok ((match lowestEmpty n s.1 action.toNat with
          | some r => fun r' c' => if r' = r ∧ c' = action.toNat then s.2 else s.1 r' c'
          | none => s.1), -s.2)

/-- The pure successor used by search. -/
def nextP (n : Nat) (s : CState) (a : Int) : CState :=
  match next n s a with
  | .ok s' => s'
  | .error _ => s

/-- `ConnectFourGame.utility`. -/
def utility (n : Nat) (s : CState) (player : Int) : Int :=
  if ¬ is_terminal n s then 0
  else
    match check_winner n s.1 with
    | some w => if w = player then 1 else -1
    | none => 0

/-- `ConnectFourGame.player`. -/
def player (s : CState) : Int := s.2

/-- The `GameM` view of `ConnectFourGame` for board size `n`. -/
def game (n : Nat) : GameM CState Int := ⟨actions n, nextP n, is_terminal n, utility n⟩

/-- States reachable from the initial empty board by legal moves. -/
inductive Reach (n : Nat) : CState → Prop where
  | init : Reach n initial_state
  | step {s : CState} {a : Int} : Reach n s → a ∈ actions n s → Reach n (nextP n s a)

/-- The player fully occupies a length-4 line (row, column or diagonal
segment) on the `n x n` board: the specification's notion of a winning
configuration. -/
def hasLine (n : Nat) (b : Board) (q : Int) : Prop :=
  (∃ r < n, ∃ c, c + 4 ≤ n ∧ ∀ i < 4, b r (c + i) = q) ∨
  (∃ c < n, ∃ r, r + 4 ≤ n ∧ ∀ i < 4, b (r + i) c = q) ∨
  (∃ r, ∃ c, r + 4 ≤ n ∧ c + 4 ≤ n ∧ ∀ i < 4, b (r + i) (c + i) = q) ∨
  (∃ r, ∃ c, r + 4 ≤ n ∧ c + 4 ≤ n ∧ ∀ i < 4, b (r + i) (c + 3 - i) = q)

/-- A full line within a single 4x4 window, in the window's local
coordinates. -/
def hasLine4w (w : Board) (q : Int) : Prop :=
  (∃ r < 4, ∀ i < 4, w r i = q) ∨ (∃ c < 4, ∀ i < 4, w i c = q) ∨
  (∀ i < 4, w i i = q) ∨ (∀ i < 4, w i (3 - i) = q)

/-- All cells of the `n x n` grid hold `0`, `+1` or `-1`. -/
def cellsOk (n : Nat) (b : Board) : Prop :=
  ∀ r < n, ∀ c < n, b r c = 0 ∨ b r c = 1 ∨ b r c = -1

/-- Gravity invariant: below any occupied cell every cell is occupied. -/
def Grav (n : Nat) (b : Board) : Prop :=
  ∀ c < n, ∀ r, r + 1 < n → b r c ≠ 0 → b (r + 1) c ≠ 0

lemma sum4_one {a b c d : Int}
    (ha : a = 0 ∨ a = 1 ∨ a = -1) (hb : b = 0 ∨ b = 1 ∨ b = -1)
    (hc : c = 0 ∨ c = 1 ∨ c = -1) (hd : d = 0 ∨ d = 1 ∨ d = -1) :
    (4 : Int) = a + b + c + d ↔ a = 1 ∧ b = 1 ∧ c = 1 ∧ d = 1 := by omega

lemma sum4_negone {a b c d : Int}
    (ha : a = 0 ∨ a = 1 ∨ a = -1) (hb : b = 0 ∨ b = 1 ∨ b = -1)
    (hc : c = 0 ∨ c = 1 ∨ c = -1) (hd : d = 0 ∨ d = 1 ∨ d = -1) :
    (-4 : Int) = a + b + c + d ↔ a = -1 ∧ b = -1 ∧ c = -1 ∧ d = -1 := by omega

lemma mem_lines4_one {w : Board} (hok : cellsOk 4 w) :
    ((4 : Int) ∈ lines4 w) ↔ hasLine4w w 1 := by
  have h00 := hok 0 (by omega) 0 (by omega)
  have h01 := hok 0 (by omega) 1 (by omega)
  have h02 := hok 0 (by omega) 2 (by omega)
  have h03 := hok 0 (by omega) 3 (by omega)
  have h10 := hok 1 (by omega) 0 (by omega)
  have h11 := hok 1 (by omega) 1 (by omega)
  have h12 := hok 1 (by omega) 2 (by omega)
  have h13 := hok 1 (by omega) 3 (by omega)
  have h20 := hok 2 (by omega) 0 (by omega)
  have h21 := hok 2 (by omega) 1 (by omega)
  have h22 := hok 2 (by omega) 2 (by omega)
  have h23 := hok 2 (by omega) 3 (by omega)
  have h30 := hok 3 (by omega) 0 (by omega)
  have h31 := hok 3 (by omega) 1 (by omega)
  have h32 := hok 3 (by omega) 2 (by omega)
  have h33 := hok 3 (by omega) 3 (by omega)
  unfold lines4 row_sum4 col_sum4 hasLine4w
  simp only [List.mem_cons, List.not_mem_nil, or_false, exists_lt_four, forall_lt_four,
    Nat.sub_zero, show (3 : Nat) - 1 = 2 from rfl, show (3 : Nat) - 2 = 1 from rfl,
    show (3 : Nat) - 3 = 0 from rfl]
  rw [sum4_one h00 h01 h02 h03, sum4_one h10 h11 h12 h13, sum4_one h20 h21 h22 h23,
    sum4_one h30 h31 h32 h33, sum4_one h00 h10 h20 h30, sum4_one h01 h11 h21 h31,
    sum4_one h02 h12 h22 h32, sum4_one h03 h13 h23 h33, sum4_one h00 h11 h22 h33,
    sum4_one h03 h12 h21 h30]
  simp only [or_assoc]

lemma mem_lines4_negone {w : Board} (hok : cellsOk 4 w) :
    ((-4 : Int) ∈ lines4 w) ↔ hasLine4w w (-1) := by
  have h00 := hok 0 (by omega) 0 (by omega)
  have h01 := hok 0 (by omega) 1 (by omega)
  have h02 := hok 0 (by omega) 2 (by omega)
  have h03 := hok 0 (by omega) 3 (by omega)
  have h10 := hok 1 (by omega) 0 (by omega)
  have h11 := hok 1 (by omega) 1 (by omega)
  have h12 := hok 1 (by omega) 2 (by omega)
  have h13 := hok 1 (by omega) 3 (by omega)
  have h20 := hok 2 (by omega) 0 (by omega)
  have h21 := hok 2 (by omega) 1 (by omega)
  have h22 := hok 2 (by omega) 2 (by omega)
  have h23 := hok 2 (by omega) 3 (by omega)
  have h30 := hok 3 (by omega) 0 (by omega)
  have h31 := hok 3 (by omega) 1 (by omega)
  have h32 := hok 3 (by omega) 2 (by omega)
  have h33 := hok 3 (by omega) 3 (by omega)
  unfold lines4 row_sum4 col_sum4 hasLine4w
  simp only [List.mem_cons, List.not_mem_nil, or_false, exists_lt_four, forall_lt_four,
    Nat.sub_zero, show (3 : Nat) - 1 = 2 from rfl, show (3 : Nat) - 2 = 1 from rfl,
    show (3 : Nat) - 3 = 0 from rfl]
  rw [sum4_negone h00 h01 h02 h03, sum4_negone h10 h11 h12 h13, sum4_negone h20 h21 h22 h23,
    sum4_negone h30 h31 h32 h33, sum4_negone h00 h10 h20 h30, sum4_negone h01 h11 h21 h31,
    sum4_negone h02 h12 h22 h32, sum4_negone h03 h13 h23 h33, sum4_negone h00 h11 h22 h33,
    sum4_negone h03 h12 h21 h30]
  simp only [or_assoc]

lemma check4_values {w : Board} {v : Int} (h : check_4x4_winner w = some v) :
    v = 1 ∨ v = -1 := by
  unfold check_4x4_winner at h
  by_cases h4 : (4 : Int) ∈ lines4 w
  · rw [if_pos h4] at h ; exact Or.inl (Option.some.inj h).symm
  · rw [if_neg h4] at h
    by_cases hm4 : (-4 : Int) ∈ lines4 w
    · rw [if_pos hm4] at h ; exact Or.inr (Option.some.inj h).symm
    · rw [if_neg hm4] at h ; exact absurd h (by simp)

lemma check4_none_iff {w : Board} (hok : cellsOk 4 w) :
    check_4x4_winner w = none ↔ ¬ hasLine4w w 1 ∧ ¬ hasLine4w w (-1) := by
  unfold check_4x4_winner
  rw [← mem_lines4_one hok, ← mem_lines4_negone hok]
  by_cases h4 : (4 : Int) ∈ lines4 w
  · rw [if_pos h4] ; simp [h4]
  · rw [if_neg h4]
    by_cases hm4 : (-4 : Int) ∈ lines4 w
    · rw [if_pos hm4] ; simp [h4, hm4]
    · rw [if_neg hm4] ; simp [h4, hm4]

lemma check4_iff {w : Board} (hok : cellsOk 4 w)
    (hnb : ¬(hasLine4w w 1 ∧ hasLine4w w (-1))) {q : Int} (hq : q = 1 ∨ q = -1) :
    check_4x4_winner w = some q ↔ hasLine4w w q := by
  unfold check_4x4_winner
  by_cases h4 : (4 : Int) ∈ lines4 w
  · rw [if_pos h4]
    have hline1 : hasLine4w w 1 := (mem_lines4_one hok).mp h4
    rcases hq with rfl | rfl
    · simp [hline1]
    · constructor
      · intro hcon ; exact absurd (Option.some.inj hcon) (by omega)
      · intro hcon ; exact absurd ⟨hline1, hcon⟩ hnb
  · rw [if_neg h4]
    by_cases hm4 : (-4 : Int) ∈ lines4 w
    · rw [if_pos hm4]
      have hlinem1 : hasLine4w w (-1) := (mem_lines4_negone hok).mp hm4
      rcases hq with rfl | rfl
      · constructor
        · intro hcon ; exact absurd (Option.some.inj hcon) (by omega)
        · intro hcon ; exact absurd ⟨hcon, hlinem1⟩ hnb
      · simp [hlinem1]
    · rw [if_neg hm4]
      rcases hq with rfl | rfl
      · simp [(mem_lines4_one hok).not.mp h4]
      · simp [(mem_lines4_negone hok).not.mp hm4]

/-- On the 4x4 board, a window-local line is exactly a length-4 line. -/
lemma hasLine4w_iff_hasLine (b : Board) (q : Int) :
    hasLine4w b q ↔ hasLine 4 b q := by
  constructor
  · rintro (⟨r, hr, cells⟩ | ⟨c, hc, cells⟩ | cells | cells)
    · exact Or.inl ⟨r, by omega, 0, by omega, fun i hi => by
        simpa using cells i hi⟩
    · exact Or.inr (Or.inl ⟨c, by omega, 0, by omega, fun i hi => by
        simpa using cells i hi⟩)
    · exact Or.inr (Or.inr (Or.inl ⟨0, 0, by omega, by omega, fun i hi => by
        simpa using cells i hi⟩))
    · refine Or.inr (Or.inr (Or.inr ⟨0, 0, by omega, by omega, fun i hi => ?_⟩))
      have he : (0 : Nat) + 3 - i = 3 - i := by omega
      have hg : (0 : Nat) + i = i := by omega
      rw [hg, he]
      exact cells i hi
  · rintro (⟨r, hr, c, hc, cells⟩ | ⟨c, hc, r, hr, cells⟩ |
      ⟨r, c, hr, hc, cells⟩ | ⟨r, c, hr, hc, cells⟩)
    · have hc0 : c = 0 := by omega
      subst hc0
      exact Or.inl ⟨r, hr, fun i hi => by simpa using cells i hi⟩
    · have hr0 : r = 0 := by omega
      subst hr0
      exact Or.inr (Or.inl ⟨c, hc, fun i hi => by simpa using cells i hi⟩)
    · have hr0 : r = 0 := by omega
      have hc0 : c = 0 := by omega
      subst hr0 ; subst hc0
      exact Or.inr (Or.inr (Or.inl (fun i hi => by simpa using cells i hi)))
    · have hr0 : r = 0 := by omega
      have hc0 : c = 0 := by omega
      subst hr0 ; subst hc0
      refine Or.inr (Or.inr (Or.inr (fun i hi => ?_)))
      have h := cells i hi
      have he : (0 : Nat) + 3 - i = 3 - i := by omega
      have hg : (0 : Nat) + i = i := by omega
      rw [hg, he] at h
      exact h

/-- On the 5x5 board, a length-4 line is exactly a window-local line of
one of the four overlapping sub-windows. -/
lemma hasLine5_iff_windows (b : Board) (q : Int) :
    hasLine 5 b q ↔ ∃ ro < 2, ∃ co < 2, hasLine4w (sub b ro co) q := by
  constructor
  · rintro (⟨r, hr, c, hc, cells⟩ | ⟨c, hc, r, hr, cells⟩ |
      ⟨r, c, hr, hc, cells⟩ | ⟨r, c, hr, hc, cells⟩)
    · rcases Nat.lt_or_ge r 4 with hr4 | hr4
      · refine ⟨0, by omega, c, by omega, Or.inl ⟨r, by omega, fun i hi => ?_⟩⟩
        show b (0 + r) (c + i) = q
        rw [Nat.zero_add]
        exact cells i hi
      · refine ⟨1, by omega, c, by omega, Or.inl ⟨r - 1, by omega, fun i hi => ?_⟩⟩
        show b (1 + (r - 1)) (c + i) = q
        have he : 1 + (r - 1) = r := by omega
        rw [he]
        exact cells i hi
    · rcases Nat.lt_or_ge c 4 with hc4 | hc4
      · refine ⟨r, by omega, 0, by omega, Or.inr (Or.inl ⟨c, by omega, fun i hi => ?_⟩)⟩
        show b (r + i) (0 + c) = q
        rw [Nat.zero_add]
        exact cells i hi
      · refine ⟨r, by omega, 1, by omega, Or.inr (Or.inl ⟨c - 1, by omega, fun i hi => ?_⟩)⟩
        show b (r + i) (1 + (c - 1)) = q
        have he : 1 + (c - 1) = c := by omega
        rw [he]
        exact cells i hi
    · exact ⟨r, by omega, c, by omega, Or.inr (Or.inr (Or.inl (fun i hi => cells i hi)))⟩
    · refine ⟨r, by omega, c, by omega, Or.inr (Or.inr (Or.inr (fun i hi => ?_)))⟩
      show b (r + i) (c + (3 - i)) = q
      have he : c + (3 - i) = c + 3 - i := by omega
      rw [he]
      exact cells i hi
  · rintro ⟨ro, hro, co, hco, ⟨r, hr, cells⟩ | ⟨c, hc, cells⟩ | cells | cells⟩
    · exact Or.inl ⟨ro + r, by omega, co, by omega, fun i hi => cells i hi⟩
    · exact Or.inr (Or.inl ⟨co + c, by omega, ro, by omega, fun i hi => cells i hi⟩)
    · exact Or.inr (Or.inr (Or.inl ⟨ro, co, by omega, by omega, fun i hi => cells i hi⟩))
    · refine Or.inr (Or.inr (Or.inr ⟨ro, co, by omega, by omega, fun i hi => ?_⟩))
      have h := cells i hi
      have he : co + (3 - i) = co + 3 - i := by omega
      show b (ro + i) (co + 3 - i) = q
      rw [← he]
      exact h

lemma cellsOk_sub {b : Board} (hok : cellsOk 5 b) {ro co : Nat}
    (hro : ro < 2) (hco : co < 2) : cellsOk 4 (sub b ro co) :=
  fun i hi j hj => hok (ro + i) (by omega) (co + j) (by omega)

lemma mem_windows5 {p : Nat × Nat} (h : p ∈ windows5) : p.1 < 2 ∧ p.2 < 2 := by
  unfold windows5 at h
  rcases List.mem_cons.mp h with rfl | h
  · exact ⟨by omega, by omega⟩
  · rcases List.mem_cons.mp h with rfl | h
    · exact ⟨by omega, by omega⟩
    · rcases List.mem_cons.mp h with rfl | h
      · exact ⟨by omega, by omega⟩
      · rcases List.mem_cons.mp h with rfl | h
        · exact ⟨by omega, by omega⟩
        · exact absurd h (List.not_mem_nil p)

lemma firstWin_cons_some {b : Board} {ro co : Nat} {v : Int} {rest : List (Nat × Nat)}
    (hc : check_4x4_winner (sub b ro co) = some v) :
    firstWin ((ro, co) :: rest) b = some v := by
  show (match check_4x4_winner (sub b ro co) with
        | some w => some w
        | none => firstWin rest b) = some v
  rw [hc]

lemma firstWin_cons_none {b : Board} {ro co : Nat} {rest : List (Nat × Nat)}
    (hc : check_4x4_winner (sub b ro co) = none) :
    firstWin ((ro, co) :: rest) b = firstWin rest b := by
  show (match check_4x4_winner (sub b ro co) with
        | some w => some w
        | none => firstWin rest b) = firstWin rest b
  rw [hc]

lemma firstWin_some {ws : List (Nat × Nat)} {b : Board} {q : Int} :
    firstWin ws b = some q → ∃ p ∈ ws, check_4x4_winner (sub b p.1 p.2) = some q := by
  induction ws with
  | nil => intro h ; exact absurd h (by simp [firstWin])
  | cons hd rest ih =>
    rcases hd with ⟨ro, co⟩
    intro h
    rcases hc : check_4x4_winner (sub b ro co) with _ | v
    · rw [firstWin_cons_none hc] at h
      obtain ⟨p, hp, hcp⟩ := ih h
      exact ⟨p, List.mem_cons_of_mem _ hp, hcp⟩
    · rw [firstWin_cons_some hc] at h
      rcases Option.some.inj h
      exact ⟨(ro, co), List.mem_cons_self _ _, hc⟩

lemma firstWin_none {ws : List (Nat × Nat)} {b : Board} :
    firstWin ws b = none → ∀ p ∈ ws, check_4x4_winner (sub b p.1 p.2) = none := by
  induction ws with
  | nil => intro _ p hp ; exact absurd hp (List.not_mem_nil p)
  | cons hd rest ih =>
    rcases hd with ⟨ro, co⟩
    intro h p hp
    rcases hc : check_4x4_winner (sub b ro co) with _ | v
    · rw [firstWin_cons_none hc] at h
      rcases List.mem_cons.mp hp with rfl | hp'
      · exact hc
      · exact ih h p hp'
    · rw [firstWin_cons_some hc] at h
      exact absurd h (by simp)

lemma firstWin_complete {ws : List (Nat × Nat)} {b : Board} {q : Int}
    (hcons : ∀ p ∈ ws, ∀ v, check_4x4_winner (sub b p.1 p.2) = some v → v = q) :
    (∃ p ∈ ws, check_4x4_winner (sub b p.1 p.2) = some q) → firstWin ws b = some q := by
  induction ws with
  | nil => rintro ⟨p, hp, _⟩ ; exact absurd hp (List.not_mem_nil p)
  | cons hd rest ih =>
    rcases hd with ⟨ro, co⟩
    rintro ⟨p, hp, hcp⟩
    rcases hc : check_4x4_winner (sub b ro co) with _ | v
    · rw [firstWin_cons_none hc]
      refine ih (fun p' hp' => hcons p' (List.mem_cons_of_mem _ hp')) ⟨p, ?_, hcp⟩
      rcases List.mem_cons.mp hp with rfl | hp'
      · rw [hc] at hcp ; exact absurd hcp (by simp)
      · exact hp'
    · rw [firstWin_cons_some hc]
      rw [hcons (ro, co) (List.mem_cons_self _ _) v hc]

lemma mem_windows5_of_lt {ro co : Nat} (hro : ro < 2) (hco : co < 2) :
    (ro, co) ∈ windows5 := by
  unfold windows5
  interval_cases ro <;> interval_cases co <;> simp

lemma check_winner_four_iff {b : Board} (hok : cellsOk 4 b)
    (hnb : ¬(hasLine 4 b 1 ∧ hasLine 4 b (-1))) {q : Int} (hq : q = 1 ∨ q = -1) :
    check_winner 4 b = some q ↔ hasLine 4 b q := by
  have hnb' : ¬(hasLine4w b 1 ∧ hasLine4w b (-1)) := by
    rintro ⟨h1, h2⟩
    exact hnb ⟨(hasLine4w_iff_hasLine b 1).mp h1, (hasLine4w_iff_hasLine b (-1)).mp h2⟩
  have hchk : check_winner 4 b = check_4x4_winner b := rfl
  rw [hchk, check4_iff hok hnb' hq, hasLine4w_iff_hasLine]

lemma check_winner_five_iff {b : Board} (hok : cellsOk 5 b)
    (hnb : ¬(hasLine 5 b 1 ∧ hasLine 5 b (-1))) {q : Int} (hq : q = 1 ∨ q = -1) :
    check_winner 5 b = some q ↔ hasLine 5 b q := by
  have hnbw : ∀ ro' : Nat, ro' < 2 → ∀ co' : Nat, co' < 2 →
      ¬(hasLine4w (sub b ro' co') 1 ∧ hasLine4w (sub b ro' co') (-1)) := by
    intro ro' h1 co' h2 hcon
    exact hnb ⟨(hasLine5_iff_windows b 1).mpr ⟨ro', h1, co', h2, hcon.1⟩,
      (hasLine5_iff_windows b (-1)).mpr ⟨ro', h1, co', h2, hcon.2⟩⟩
  have hchk : check_winner 5 b = firstWin windows5 b := rfl
  rw [hchk]
  constructor
  · intro h
    obtain ⟨p, hp, hcp⟩ := firstWin_some h
    obtain ⟨h1, h2⟩ := mem_windows5 hp
    have hlw := (check4_iff (cellsOk_sub hok h1 h2) (hnbw p.1 h1 p.2 h2) hq).mp hcp
    exact (hasLine5_iff_windows b q).mpr ⟨p.1, h1, p.2, h2, hlw⟩
  · intro h
    obtain ⟨ro, hro, co, hco, hw⟩ := (hasLine5_iff_windows b q).mp h
    have hcons : ∀ p ∈ windows5, ∀ v,
        check_4x4_winner (sub b p.1 p.2) = some v → v = q := by
      intro p hp v hv
      obtain ⟨h1, h2⟩ := mem_windows5 hp
      have hv12 := check4_values hv
      have hlw := (check4_iff (cellsOk_sub hok h1 h2) (hnbw p.1 h1 p.2 h2) hv12).mp hv
      have hl5 : hasLine 5 b v := (hasLine5_iff_windows b v).mpr ⟨p.1, h1, p.2, h2, hlw⟩
      by_contra hne
      rcases hq with rfl | rfl <;> rcases hv12 with rfl | rfl
      · exact hne rfl
      · exact hnb ⟨h, hl5⟩
      · exact hnb ⟨hl5, h⟩
      · exact hne rfl
    refine firstWin_complete hcons ⟨(ro, co), mem_windows5_of_lt hro hco, ?_⟩
    exact (check4_iff (cellsOk_sub hok hro hco) (hnbw ro hro co hco) hq).mpr hw

lemma check_winner_none_no_lines {n : Nat} (hn : n = 4 ∨ n = 5) {b : Board}
    (hok : cellsOk n b) (h : check_winner n b = none) :
    ¬ hasLine n b 1 ∧ ¬ hasLine n b (-1) := by
  rcases hn with rfl | rfl
  · have hchk : check_winner 4 b = check_4x4_winner b := rfl
    rw [hchk] at h
    obtain ⟨h1, h2⟩ := (check4_none_iff hok).mp h
    exact ⟨fun hc => h1 ((hasLine4w_iff_hasLine b 1).mpr hc),
           fun hc => h2 ((hasLine4w_iff_hasLine b (-1)).mpr hc)⟩
  · have hchk : check_winner 5 b = firstWin windows5 b := rfl
    rw [hchk] at h
    have hall := firstWin_none h
    constructor
    · intro hc
      obtain ⟨ro, hro, co, hco, hw⟩ := (hasLine5_iff_windows b 1).mp hc
      have hcw := hall (ro, co) (mem_windows5_of_lt hro hco)
      exact ((check4_none_iff (cellsOk_sub hok hro hco)).mp hcw).1 hw
    · intro hc
      obtain ⟨ro, hro, co, hco, hw⟩ := (hasLine5_iff_windows b (-1)).mp hc
      have hcw := hall (ro, co) (mem_windows5_of_lt hro hco)
      exact ((check4_none_iff (cellsOk_sub hok hro hco)).mp hcw).2 hw

/-- A full line of `q` in a board updated with a single `p`-mark, `q ≠ p`,
was already present before the update. -/
lemma hasLine_of_update_c {n : Nat} {b : Board} {rr cc : Nat} {p q : Int} (hpq : q ≠ p)
    (h : hasLine n (fun r' c' => if r' = rr ∧ c' = cc then p else b r' c') q) :
    hasLine n b q := by
  have hcell : ∀ r c : Nat,
      (if r = rr ∧ c = cc then p else b r c) = q → b r c = q := by
    intro r c hrc
    by_cases hif : r = rr ∧ c = cc
    · rw [if_pos hif] at hrc ; exact absurd hrc.symm hpq
    · rw [if_neg hif] at hrc ; exact hrc
  rcases h with ⟨r, hr, c, hc, cells⟩ | ⟨c, hc, r, hr, cells⟩ |
    ⟨r, c, hr, hc, cells⟩ | ⟨r, c, hr, hc, cells⟩
  · exact Or.inl ⟨r, hr, c, hc, fun i hi => hcell _ _ (cells i hi)⟩
  · exact Or.inr (Or.inl ⟨c, hc, r, hr, fun i hi => hcell _ _ (cells i hi)⟩)
  · exact Or.inr (Or.inr (Or.inl ⟨r, c, hr, hc, fun i hi => hcell _ _ (cells i hi)⟩))
  · exact Or.inr (Or.inr (Or.inr ⟨r, c, hr, hc, fun i hi => hcell _ _ (cells i hi)⟩))

lemma not_hasLine_zero_c (n : Nat) (q : Int) (hq : q ≠ 0) :
    ¬ hasLine n (fun _ _ => 0) q := by
  rintro (⟨r, _, c, _, cells⟩ | ⟨c, _, r, _, cells⟩ |
    ⟨r, c, _, _, cells⟩ | ⟨r, c, _, _, cells⟩)
  · exact hq (cells 0 (by omega)).symm
  · exact hq (cells 0 (by omega)).symm
  · exact hq (cells 0 (by omega)).symm
  · exact hq (cells 0 (by omega)).symm

lemma is_terminal_false_iff_c (n : Nat) (s : CState) :
    is_terminal n s = false ↔ check_winner n s.1 = none ∧ has_empty n s.1 = true := by
  unfold is_terminal
  rw [Bool.or_eq_false_iff]
  constructor
  · rintro ⟨h1, h2⟩
    exact ⟨Option.not_isSome_iff_eq_none.mp (by simp [h1]), by simpa using h2⟩
  · rintro ⟨h1, h2⟩
    exact ⟨by simp [h1], by simpa using h2⟩

lemma mem_actions_c {n : Nat} {s : CState} {a : Int} :
    a ∈ actions n s ↔ is_terminal n s = false ∧
      ∃ c : Nat, c < n ∧ a = (c : Int) ∧ s.1 0 c = 0 := by
  unfold actions
  by_cases ht : is_terminal n s
  · rw [if_pos ht] ; simp [ht]
  · rw [if_neg ht]
    simp only [eq_false_of_ne_true ht, true_and, List.mem_map, List.mem_filter,
      List.mem_range]
    constructor
    · rintro ⟨c, ⟨hc, hz⟩, rfl⟩
      exact ⟨c, hc, rfl, by simpa using hz⟩
    · rintro ⟨c, hc, rfl, hz⟩
      exact ⟨c, ⟨hc, by simpa using hz⟩, rfl⟩

lemma getLast?_spec : ∀ (l : List Nat) (m : Nat), l.getLast? = some m →
    m ∈ l ∧ (l.Pairwise (· < ·) → ∀ x ∈ l, x ≤ m)
  | [], m, h => absurd h (by simp)
  | [a], m, h => by
    have ha : a = m := by simpa using h
    subst ha
    refine ⟨List.mem_singleton.mpr rfl, fun _ x hx => ?_⟩
    rw [List.mem_singleton.mp hx]
  | a :: b :: l, m, h => by
    rw [List.getLast?_cons_cons] at h
    obtain ⟨hmem, hmax⟩ := getLast?_spec (b :: l) m h
    refine ⟨List.mem_cons_of_mem a hmem, fun hpw x hx => ?_⟩
    have hpw' : (b :: l).Pairwise (· < ·) := (List.pairwise_cons.mp hpw).2
    rcases List.mem_cons.mp hx with rfl | hx'
    · exact le_of_lt ((List.pairwise_cons.mp hpw).1 m hmem)
    · exact hmax hpw' x hx'

lemma lowestEmpty_spec {n : Nat} {b : Board} {c : Nat} (h0 : b 0 c = 0) (hn : 0 < n) :
    ∃ r, lowestEmpty n b c = some r ∧ r < n ∧ b r c = 0 ∧
      ∀ r', r < r' → r' < n → b r' c ≠ 0 := by
  unfold lowestEmpty
  set l := (List.range n).filter (fun r => b r c == 0) with hl
  have h0mem : 0 ∈ l := List.mem_filter.mpr ⟨List.mem_range.mpr hn, by simpa using h0⟩
  have hne : l ≠ [] := by
    intro hnil
    rw [hnil] at h0mem
    exact absurd h0mem (List.not_mem_nil 0)
  have hm : l.getLast? = some (l.getLast hne) := List.getLast?_eq_getLast_of_ne_nil hne
  have hpw : l.Pairwise (· < ·) := List.Pairwise.filter _ (List.pairwise_lt_range n)
  obtain ⟨hmem, hmax⟩ := getLast?_spec l (l.getLast hne) hm
  obtain ⟨hrange, hzero⟩ := List.mem_filter.mp hmem
  refine ⟨l.getLast hne, hm, List.mem_range.mp hrange, by simpa using hzero, ?_⟩
  intro r' hr1 hr2 hz
  have hr'mem : r' ∈ l := List.mem_filter.mpr ⟨List.mem_range.mpr hr2, by simpa using hz⟩
  exact absurd (hmax hpw r' hr'mem) (by omega)

lemma next_of_mem_c {n : Nat} {s : CState} {a : Int} (hn : 0 < n) (h : a ∈ actions n s) :
    ∃ c r : Nat, c < n ∧ a = (c : Int) ∧ s.1 0 c = 0 ∧ r < n ∧ s.1 r c = 0 ∧
      (∀ r', r < r' → r' < n → s.1 r' c ≠ 0) ∧
      next n s a = .ok ((fun r' c' => if r' = r ∧ c' = c then s.2 else s.1 r' c'), -s.2) ∧
      nextP n s a = ((fun r' c' => if r' = r ∧ c' = c then s.2 else s.1 r' c'), -s.2) := by
  obtain ⟨hterm, c, hc, rfl, hz⟩ := mem_actions_c.mp h
  obtain ⟨r, hle, hrn, hrz, hmax⟩ := lowestEmpty_spec hz hn
  have hnext : next n s (c : Int)
      = .ok ((fun r' c' => if r' = r ∧ c' = c then s.2 else s.1 r' c'), -s.2) := by
    unfold next
    rw [if_neg (by push_neg ; constructor <;> [omega ; exact_mod_cast hc])]
    simp only [Int.toNat_natCast]
    rw [if_neg (by simpa using hz), hle]
  exact ⟨c, r, hc, rfl, hz, hrn, hrz, hmax, hnext, by unfold nextP ; rw [hnext]⟩

/-- Invariant of reachable Connect Four states: cells in `{0, +1, -1}`,
player in `{+1, -1}`, not both players own complete lines, and gravity. -/
lemma reach_inv_c {n : Nat} (hn : n = 4 ∨ n = 5) : ∀ {s : CState}, Reach n s →
    cellsOk n s.1 ∧ (s.2 = 1 ∨ s.2 = -1) ∧
    ¬(hasLine n s.1 1 ∧ hasLine n s.1 (-1)) ∧ Grav n s.1 := by
  intro s h
  induction h with
  | init =>
    refine ⟨fun r _ c _ => Or.inl rfl, Or.inl rfl, ?_, fun c _ r _ hr => absurd rfl hr⟩
    rintro ⟨h1, _⟩
    exact not_hasLine_zero_c n 1 (by omega) h1
  | @step s' a' hs hmem ih =>
    obtain ⟨hok, hpl, hnb, hgrav⟩ := ih
    obtain ⟨c, r, hc, rfl, hz0, hrn, hrz, hmax, hnext, hnextP⟩ :=
      next_of_mem_c (by omega) hmem
    obtain ⟨hterm, _⟩ := mem_actions_c.mp hmem
    obtain ⟨hcw, _⟩ := (is_terminal_false_iff_c _ _).mp hterm
    obtain ⟨hno1, hnom1⟩ := check_winner_none_no_lines hn hok hcw
    rw [hnextP]
    refine ⟨?_, by rcases hpl with h' | h' <;> rw [h'] <;> simp, ?_, ?_⟩
    · intro r' hr' c' hc'
      by_cases hif : r' = r ∧ c' = c
      · simp only [hif, if_true]
        rcases hpl with h' | h' <;> rw [h'] <;> simp
      · simp only [hif, if_false]
        exact hok r' hr' c' hc'
    · rintro ⟨hl1, hlm1⟩
      rcases hpl with h' | h'
      · exact hnom1 (hasLine_of_update_c (by rw [h'] ; omega) hlm1)
      · exact hno1 (hasLine_of_update_c (by rw [h'] ; omega) hl1)
    · intro c' hc' r0 hr0 hne0
      by_cases hcc : c' = c
      · subst hcc
        by_cases h1 : r0 + 1 = r
        · show (if r0 + 1 = r ∧ c' = c' then s'.2 else s'.1 (r0 + 1) c') ≠ 0
          rw [if_pos ⟨h1, rfl⟩]
          rcases hpl with h' | h' <;> rw [h'] <;> omega
        · show (if r0 + 1 = r ∧ c' = c' then s'.2 else s'.1 (r0 + 1) c') ≠ 0
          rw [if_neg (by tauto)]
          by_cases h2 : r0 = r
          · subst h2
            exact hmax (r0 + 1) (by omega) hr0
          · have hprev : s'.1 r0 c' ≠ 0 := by
              intro hzz
              apply hne0
              show (if r0 = r ∧ c' = c' then s'.2 else s'.1 r0 c') = 0
              rw [if_neg (by tauto)]
              exact hzz
            exact hgrav c' hc' r0 hr0 hprev
      · have hprev : s'.1 r0 c' ≠ 0 := by
          intro hzz
          apply hne0
          show (if r0 = r ∧ c' = c then s'.2 else s'.1 r0 c') = 0
          rw [if_neg (by tauto)]
          exact hzz
        have hnext0 : s'.1 (r0 + 1) c' ≠ 0 := hgrav c' hc' r0 hr0 hprev
        show (if r0 + 1 = r ∧ c' = c then s'.2 else s'.1 (r0 + 1) c') ≠ 0
        rw [if_neg (by tauto)]
        exact hnext0

/-- For reachable states, `_check_winner` reports a winner exactly when
that player fully occupies a length-4 line. -/
lemma check_winner_iff_c {n : Nat} (hn : n = 4 ∨ n = 5) {s : CState} (h : Reach n s)
    {q : Int} (hq : q = 1 ∨ q = -1) :
    check_winner n s.1 = some q ↔ hasLine n s.1 q := by
  obtain ⟨hok, _, hnb, _⟩ := reach_inv_c hn h
  rcases hn with rfl | rfl
  · exact check_winner_four_iff hok hnb hq
  · exact check_winner_five_iff hok hnb hq

end ConnectFour

/-- Apply a sequence of actions through the session's validated `move`:
the run stops (with `none`) as soon as an action is not legal. -/
def runMoves (g : GameM S A) [DecidableEq A] : S → List A → Option S
  | s, [] => some s
  | s, a :: rest => if a ∈ g.actions s then runMoves g (g.next s a) rest else none

/-- Any legal run is no longer than the strictly decreasing measure of its
start state. -/
lemma runMoves_length_le (g : GameM S A) [DecidableEq A] (meas : S → Nat)
    (Inv : S → Prop)
    (hpres : ∀ s a, Inv s → a ∈ g.actions s →
      Inv (g.next s a) ∧ meas (g.next s a) < meas s) :
    ∀ (acts : List A) (s s' : S), Inv s → runMoves g s acts = some s' →
      acts.length + meas s' ≤ meas s ∧ Inv s' := by
  intro acts
  induction acts with
  | nil =>
    intro s s' hinv h
    cases Option.some.inj h
    exact ⟨by simp, hinv⟩
  | cons a rest ih =>
    intro s s' hinv h
    unfold runMoves at h
    by_cases hmem : a ∈ g.actions s
    · rw [if_pos hmem] at h
      obtain ⟨hinv2, hlt⟩ := hpres s a hinv hmem
      obtain ⟨hlen, hinv'⟩ := ih (g.next s a) s' hinv2 h
      refine ⟨?_, hinv'⟩
      simp only [List.length_cons]
      omega
    · rw [if_neg hmem] at h
      exact absurd h (by simp)

/-- The number of empty cells of an `n x n` grid. -/
def countZeros (n : Nat) (b : Nat → Nat → Int) : Nat :=
  Finset.sum (Finset.range n)
    (fun r => Finset.sum (Finset.range n) (fun c => if b r c = 0 then 1 else 0))

lemma countZeros_update_lt {n : Nat} (b : Nat → Nat → Int) (r c : Nat)
    (hr : r < n) (hc : c < n) (hz : b r c = 0) (p : Int) (hp : p ≠ 0) :
    countZeros n (fun r' c' => if r' = r ∧ c' = c then p else b r' c')
      < countZeros n b := by
  unfold countZeros
  apply Finset.sum_lt_sum
  · intro i _
    apply Finset.sum_le_sum
    intro j _
    by_cases hij : i = r ∧ j = c
    · obtain ⟨rfl, rfl⟩ := hij
      simp [hz, hp]
    · simp [hij]
  · refine ⟨r, Finset.mem_range.mpr hr, ?_⟩
    apply Finset.sum_lt_sum
    · intro j _
      by_cases hij : r = r ∧ j = c
      · obtain ⟨-, rfl⟩ := hij
        simp [hz, hp]
      · have hjc : j ≠ c := fun h => hij ⟨rfl, h⟩
        simp [hjc]
    · refine ⟨c, Finset.mem_range.mpr hc, ?_⟩
      simp [hz, hp]

/-- Errors of `Game.move` are exactly the illegal actions, provided the
game's own `next` succeeds on every legal action. -/
lemma Game.move_error_iff {S A : Type} [DecidableEq A] (acts : S → List A)
    (nxt : S → A → Except PyErr S)
    (hok : ∀ s a, a ∈ acts s → ∃ s', nxt s a = .ok s') (s : S) (a : A) :
    (∃ e, Game.move acts nxt s a = .error e) ↔ a ∉ acts s := by
  unfold Game.move
  by_cases hmem : a ∈ acts s
  · rw [if_pos hmem]
    obtain ⟨s', hs'⟩ := hok s a hmem
    rw [hs']
    simp [hmem]
  · rw [if_neg hmem]
    simp [hmem]

/-- When applying a move reports an error, the session state is
unchanged. -/
lemma Game.sessionApply_error_unchanged {S A : Type} [DecidableEq A]
    (acts : S → List A) (nxt : S → A → Except PyErr S) (s : S) (a : A) (e : PyErr)
    (h : (Game.sessionApply acts nxt s a).2 = some e) :
    (Game.sessionApply acts nxt s a).1 = s := by
  unfold Game.sessionApply at h ⊢
  cases hmv : Game.move acts nxt s a with
  | ok s' => rw [hmv] at h ; exact absurd h (by simp)
  | error e' => rfl

namespace Halving

lemma measure_decrease_h {s : HState} {a : String} (hinv : 0 ≤ s.1)
    (h : a ∈ actions s) :
    0 ≤ (nextP s a).1 ∧ (nextP s a).1.toNat < s.1.toNat := by
  have hterm : is_terminal s = false := by
    unfold actions at h
    by_cases ht : is_terminal s
    · rw [if_pos ht] at h ; exact absurd h (List.not_mem_nil a)
    · exact eq_false_of_ne_true ht
  have hne : s.1 ≠ 0 := by
    unfold is_terminal at hterm
    simpa using hterm
  unfold actions at h
  rw [if_neg (by simp [hterm])] at h
  rcases List.mem_cons.mp h with rfl | h'
  · have hstep : nextP s "subtract" = (s.1 - 1, -s.2) := rfl
    rw [hstep]
    constructor
    · simp only ; omega
    · simp only ; omega
  · rcases List.mem_cons.mp h' with rfl | h''
    · have hstep : nextP s "halve" = (s.1 / 2, -s.2) := rfl
      rw [hstep]
      constructor
      · simp only ; omega
      · simp only ; omega
    · exact absurd h'' (List.not_mem_nil _)

end Halving

namespace Nim

lemma sum_set_lt : ∀ (l : List Nat) (i : Nat), i < l.length → ∀ t : Nat,
    t < l.getD i 0 → (l.set i t).sum < l.sum := by
  intro l
  induction l with
  | nil => intro i hi ; simp at hi
  | cons p rest ih =>
    intro i hi t ht
    cases i with
    | zero =>
      simp only [List.set, List.sum_cons]
      simp only [List.getD_cons_zero] at ht
      omega
    | succ i' =>
      simp only [List.set, List.sum_cons]
      simp only [List.getD_cons_succ] at ht
      have := ih i' (by simpa using hi) t ht
      omega

lemma measure_decrease_n {s : NState} {a : Int × Int} (h : a ∈ actions s) :
    (nextP s a).1.sum < s.1.sum := by
  obtain ⟨j, hj, h1, h2, h3⟩ := mem_actions_n.mp h
  have hnext := next_ok_of_mem_n h
  have hnextP : nextP s a
      = (s.1.set a.1.toNat (s.1.getD a.1.toNat 0 - a.2.toNat), -s.2) := by
    unfold nextP ; rw [hnext]
  rw [hnextP]
  have hjj : a.1.toNat = j := by rw [h1] ; simp
  rw [hjj]
  apply sum_set_lt s.1 j hj
  omega

end Nim

namespace TicTacToe

lemma has_empty_iff_t (b : Board) :
    has_empty b = true ↔ ∃ r : Nat, r < 3 ∧ ∃ c : Nat, c < 3 ∧ b r c = 0 := by
  unfold has_empty
  rw [List.any_eq_true]
  constructor
  · rintro ⟨r, hr, h⟩
    rw [List.any_eq_true] at h
    obtain ⟨c, hc, hz⟩ := h
    exact ⟨r, List.mem_range.mp hr, c, List.mem_range.mp hc, by simpa using hz⟩
  · rintro ⟨r, hr, c, hc, hz⟩
    exact ⟨r, List.mem_range.mpr hr,
      List.any_eq_true.mpr ⟨c, List.mem_range.mpr hc, by simpa using hz⟩⟩

lemma actions_empty_iff_t (s : TState) : actions s = [] ↔ is_terminal s = true := by
  constructor
  · intro hempty
    by_contra hterm
    have hterm' : is_terminal s = false := eq_false_of_ne_true hterm
    obtain ⟨_, hhe⟩ := (is_terminal_false_iff_t s).mp hterm'
    obtain ⟨r, hr, c, hc, hz⟩ := (has_empty_iff_t s.1).mp hhe
    have hmem : ((r : Int), (c : Int)) ∈ actions s :=
      mem_actions_t.mpr ⟨hterm', r, hr, c, hc, rfl, hz⟩
    rw [hempty] at hmem
    exact absurd hmem (List.not_mem_nil _)
  · intro ht
    unfold actions
    rw [if_pos ht]

lemma reach_runMoves_t : ∀ (acts : List (Int × Int)) {s s' : TState}, Reach s →
    runMoves game s acts = some s' → Reach s' := by
  intro acts
  induction acts with
  | nil =>
    intro s s' h hrun
    cases Option.some.inj hrun
    exact h
  | cons a rest ih =>
    intro s s' h hrun
    unfold runMoves at hrun
    by_cases hmem : a ∈ game.actions s
    · rw [if_pos hmem] at hrun
      exact ih (Reach.step h hmem) hrun
    · rw [if_neg hmem] at hrun
      exact absurd hrun (by simp)

lemma check_winner_values_t {b : Board} {v : Int} (h : check_winner b = some v) :
    v = 1 ∨ v = -1 := by
  unfold check_winner at h
  by_cases h3 : (3 : Int) ∈ lines b
  · rw [if_pos h3] at h ; exact Or.inl (Option.some.inj h).symm
  · rw [if_neg h3] at h
    by_cases hm3 : (-3 : Int) ∈ lines b
    · rw [if_pos hm3] at h ; exact Or.inr (Option.some.inj h).symm
    · rw [if_neg hm3] at h ; exact absurd h (by simp)

end TicTacToe

namespace ConnectFour

lemma has_empty_iff_c (n : Nat) (b : Board) :
    has_empty n b = true ↔ ∃ r : Nat, r < n ∧ ∃ c : Nat, c < n ∧ b r c = 0 := by
  unfold has_empty
  rw [List.any_eq_true]
  constructor
  · rintro ⟨r, hr, h⟩
    rw [List.any_eq_true] at h
    obtain ⟨c, hc, hz⟩ := h
    exact ⟨r, List.mem_range.mp hr, c, List.mem_range.mp hc, by simpa using hz⟩
  · rintro ⟨r, hr, c, hc, hz⟩
    exact ⟨r, List.mem_range.mpr hr,
      List.any_eq_true.mpr ⟨c, List.mem_range.mpr hc, by simpa using hz⟩⟩

lemma actions_empty_stuck {n : Nat} {s : CState} (hg : Grav n s.1)
    (hempty : actions n s = []) : is_terminal n s = true := by
  by_contra hterm
  have hterm' : is_terminal n s = false := eq_false_of_ne_true hterm
  obtain ⟨_, hhe⟩ := (is_terminal_false_iff_c n s).mp hterm'
  obtain ⟨r, hr, c, hc, hz⟩ := (has_empty_iff_c n s.1).mp hhe
  have htop : s.1 0 c = 0 := by
    by_contra htop
    have hfull : ∀ r', r' < n → s.1 r' c ≠ 0 := by
      intro r'
      induction r' with
      | zero => intro _ ; exact htop
      | succ r'' ihr =>
        intro hlt
        exact hg c hc r'' hlt (ihr (by omega))
    exact hfull r hr hz
  have hmem : ((c : Int)) ∈ actions n s :=
    mem_actions_c.mpr ⟨hterm', c, hc, rfl, htop⟩
  rw [hempty] at hmem
  exact absurd hmem (List.not_mem_nil _)

lemma reach_runMoves_c (n : Nat) : ∀ (acts : List Int) {s s' : CState}, Reach n s →
    runMoves (game n) s acts = some s' → Reach n s' := by
  intro acts
  induction acts with
  | nil =>
    intro s s' h hrun
    cases Option.some.inj hrun
    exact h
  | cons a rest ih =>
    intro s s' h hrun
    unfold runMoves at hrun
    by_cases hmem : a ∈ (game n).actions s
    · rw [if_pos hmem] at hrun
      exact ih (Reach.step h hmem) hrun
    · rw [if_neg hmem] at hrun
      exact absurd hrun (by simp)

lemma check_winner_values_c {n : Nat} {b : Board} {v : Int}
    (h : check_winner n b = some v) : v = 1 ∨ v = -1 := by
  unfold check_winner at h
  by_cases h4 : n = 4
  · rw [if_pos h4] at h ; exact check4_values h
  · rw [if_neg h4] at h
    by_cases h5 : n = 5
    · rw [if_pos h5] at h
      obtain ⟨p, _, hcp⟩ := firstWin_some h
      exact check4_values hcp
    · rw [if_neg h5] at h ; exact absurd h (by simp)

/-- Exact characterization of the errors raised by `ConnectFourGame.next`:
out-of-range column or occupied top cell, both explicitly checked. -/
lemma next_error_iff_c (n : Nat) (s : CState) (a : Int) :
    (∃ e, next n s a = .error e) ↔
      (a < 0 ∨ (n : Int) ≤ a ∨ s.1 0 a.toNat ≠ 0) := by
  unfold next
  by_cases h1 : a < 0 ∨ (n : Int) ≤ a
  · rw [if_pos h1]
    simp only [Except.error.injEq, exists_eq']
    tauto
  · rw [if_neg h1]
    by_cases h2 : s.1 0 a.toNat ≠ 0
    · rw [if_pos h2]
      simp only [Except.error.injEq, exists_eq']
      tauto
    · rw [if_neg h2]
      constructor
      · rintro ⟨e, he⟩ ; exact absurd he (by simp)
      · intro hcon
        push_neg at h1 h2
        rcases hcon with h | h | h
        · omega
        · omega
        · exact absurd h2 (by simpa using h)

end ConnectFour

namespace Halving

/-- Exact characterization of the errors raised by `HalvingGame.next`:
unknown action strings only; terminality is not checked. -/
lemma next_error_iff_h (s : HState) (a : String) :
    (∃ e, next s a = .error e) ↔ a ≠ "subtract" ∧ a ≠ "halve" := by
  unfold next
  by_cases h1 : a = "subtract"
  · rw [if_pos h1] ; simp [h1]
  · rw [if_neg h1]
    by_cases h2 : a = "halve"
    · rw [if_pos h2] ; simp [h1, h2]
    · rw [if_neg h2] ; simp [h1, h2]

end Halving

namespace Nim

/-- Exact characterization of the errors raised by `NimGame.next`:
out-of-range pile index or removal count, both explicitly checked. -/
lemma next_error_iff_n (s : NState) (a : Int × Int) :
    (∃ e, next s a = .error e) ↔
      (a.1 < 0 ∨ (s.1.length : Int) ≤ a.1 ∨ a.2 < 1 ∨
        (s.1.getD a.1.toNat 0 : Int) < a.2) := by
  unfold next
  by_cases h1 : a.1 < 0 ∨ (s.1.length : Int) ≤ a.1
  · rw [if_pos h1]
    simp only [Except.error.injEq, exists_eq']
    tauto
  · rw [if_neg h1]
    by_cases h2 : a.2 < 1 ∨ (s.1.getD a.1.toNat 0 : Int) < a.2
    · rw [if_pos h2]
      simp only [Except.error.injEq, exists_eq']
      tauto
    · rw [if_neg h2]
      constructor
      · rintro ⟨e, he⟩ ; exact absurd he (by simp)
      · intro hcon
        push_neg at h1 h2
        omega

end Nim

namespace TicTacToe

/-- Exact characterization of the errors raised by `TicTacToeGame.next`:
an `IndexError` when either index is outside `numpy`'s accepted `-3..2`
range, a `ValueError` when the (possibly wrapped) cell is occupied. -/
lemma next_error_iff_t (s : TState) (a : Int × Int) :
    (∃ e, next s a = .error e) ↔
      (idx3 a.1 = none ∨ idx3 a.2 = none ∨
        ∃ r c : Nat, idx3 a.1 = some r ∧ idx3 a.2 = some c ∧ s.1 r c ≠ 0) := by
  unfold next
  rcases hr : idx3 a.1 with _ | r
  · simp only [hr]
    constructor
    · intro _ ; exact Or.inl trivial
    · intro _ ; exact ⟨.indexError, rfl⟩
  · rcases hc : idx3 a.2 with _ | c
    · simp only [hr, hc]
      constructor
      · intro _ ; exact Or.inr (Or.inl trivial)
      · intro _ ; exact ⟨.indexError, rfl⟩
    · simp only [hr, hc]
      by_cases hocc : s.1 r c ≠ 0
      · rw [if_pos hocc]
        constructor
        · intro _ ; exact Or.inr (Or.inr ⟨r, c, rfl, rfl, hocc⟩)
        · intro _ ; exact ⟨.valueError, rfl⟩
      · rw [if_neg hocc]
        constructor
        · rintro ⟨e, he⟩ ; exact absurd he (by simp)
        · rintro (h | h | ⟨r', c', hr', hc', hocc'⟩)
          · exact absurd h (by simp)
          · exact absurd h (by simp)
          · exact absurd hocc' (by
              have hrr : r' = r := (Option.some.inj hr').symm
              have hcc : c' = c := (Option.some.inj hc').symm
              rw [hrr, hcc]
              simpa using hocc)

/-- A completed drawn board: full, with no three-in-a-row for either
player. -/
def drawBoard : Board := fun r c =>
  (([[1, -1, 1], [1, -1, -1], [-1, 1, 1]] : List (List Int)).getD r []).getD c 0

end TicTacToe

/-- **C1.** For every state of the Halving and Tic-Tac-Toe games (in
particular every reachable non-terminal one), every `max_depth`, player id
and fuel, the action returned by `MinimaxAgent.choose_action` — which uses
alpha-beta pruning inside `_minimax` — equals the action that plain
unpruned minimax selects, the first action in `actions()` order attaining
the maximal value: enabling pruning never changes the chosen move. -/
theorem games_C1 :
    (∀ (md : Option Int) (pid : Int) (fuel : Nat) (s : Halving.HState),
      Minimax.choose_action Halving.game md pid fuel s
        = Minimax.choose_action_noprune Halving.game md pid fuel s) ∧
    (∀ (md : Option Int) (pid : Int) (fuel : Nat) (s : TicTacToe.TState),
      Minimax.choose_action TicTacToe.game md pid fuel s
        = Minimax.choose_action_noprune TicTacToe.game md pid fuel s) :=
  ⟨fun md pid fuel s => Minimax.choose_eq_noprune Halving.game md pid fuel s,
   fun md pid fuel s => Minimax.choose_eq_noprune TicTacToe.game md pid fuel s⟩

/-- **C2.** For every game whose action list is empty exactly at terminal
states and every state with at least one legal action,
`MinimaxAgent.choose_action` returns the first action, in `actions()`
order, whose minimax value is maximal: every action's value is at most the
chosen one's, and every earlier action's value is strictly below it (ties
never replace the incumbent); with exactly one legal action, that action
is returned by the shortcut, with no behavioral difference. -/
theorem games_C2 (S A : Type) (g : GameM S A) (md : Option Int) (pid : Int)
    (fuel : Nat) (s : S)
    (hne : ∀ t, g.actions t = [] → g.isTerminal t = true)
    (hnonempty : g.actions s ≠ []) :
    ∃ k : Nat, ∃ act : A, (g.actions s).get? k = some act ∧
      Minimax.choose_action g md pid fuel s = some act ∧
      (∀ (j : Nat) (aj : A), (g.actions s).get? j = some aj →
        Minimax.mmVal g md pid fuel (g.next s aj) 0 false
          ≤ Minimax.mmVal g md pid fuel (g.next s act) 0 false) ∧
      (∀ (j : Nat) (aj : A), (g.actions s).get? j = some aj → j < k →
        Minimax.mmVal g md pid fuel (g.next s aj) 0 false
          < Minimax.mmVal g md pid fuel (g.next s act) 0 false) := by
  rw [Minimax.choose_eq_noprune]
  rcases hacts : g.actions s with _ | ⟨a, tail⟩
  · exact absurd hacts hnonempty
  · rcases tail with _ | ⟨b, l⟩
    · have hchoose : Minimax.choose_action_noprune g md pid fuel s = some a := by
        unfold Minimax.choose_action_noprune
        rw [hacts]
      refine ⟨0, a, rfl, hchoose, ?_, ?_⟩
      · intro j aj hj
        cases j with
        | zero =>
          have : a = aj := by simpa using hj
          rw [← this]
        | succ j' => exact absurd hj (by simp)
      · intro j aj hj hj0
        exact absurd hj0 (Nat.not_lt_zero j)
    · have hchoose : Minimax.choose_action_noprune g md pid fuel s
          = Minimax.bestLoop
              (fun x => Minimax.mmVal g md pid fuel (g.next s x) 0 false)
              (a :: b :: l) none XInt.negInf := by
        unfold Minimax.choose_action_noprune
        rw [hacts]
      rcases Minimax.bestLoop_none_spec
          (fun x => Minimax.mmVal g md pid fuel (g.next s x) 0 false) (a :: b :: l) with
        ⟨hall, _⟩ | ⟨k, hk, heq, _, hmax, hfirst⟩
      · obtain ⟨m, hm⟩ := Minimax.mmVal_fin g md pid hne fuel (g.next s a) 0 false
        have hcon := hall a (List.mem_cons_self _ _)
        rw [hm] at hcon
        exact absurd hcon (fun hh => XInt.noConfusion hh)
      · refine ⟨k, (a :: b :: l).get ⟨k, hk⟩, ?_, ?_, ?_, ?_⟩
        · exact List.get?_eq_get hk
        · rw [hchoose, heq]
        · intro j aj hj
          obtain ⟨hjlen, hjeq⟩ := List.get?_eq_some.mp hj
          rw [← hjeq]
          exact hmax j hjlen
        · intro j aj hj hjk
          obtain ⟨hjlen, hjeq⟩ := List.get?_eq_some.mp hj
          rw [← hjeq]
          exact hfirst j hjlen hjk

/-- Witness for C2: on the Halving state `(1, 1)` the agent finds a
move. -/
theorem games_C2_witness :
    (Minimax.choose_action Halving.game none 1 1 ((1 : Int), (1 : Int))).isSome
      = true := by
  obtain ⟨k, act, hget, hchoose, _, _⟩ :=
    games_C2 Halving.HState String Halving.game none 1 1 ((1 : Int), (1 : Int))
      (fun t ht => (Halving.actions_ne_empty_iff t).mp ht) (by decide)
  rw [hchoose]
  rfl

/-- **C3.** For Tic-Tac-Toe and for Connect Four with board size 4 or 5,
on every board reachable by legal moves from the initial state,
`_check_winner` reports player `p` as winner exactly when `p` fully
occupies a line of the required length (length 3 for Tic-Tac-Toe; length 4
for Connect Four, where the 5x5 board is covered by the four overlapping
4x4 sub-windows); no lesser configuration is reported, and a reported win
makes the state terminal with utility 1 for the winner. -/
theorem games_C3 :
    (∀ (s : TicTacToe.TState), TicTacToe.Reach s → ∀ q : Int, q = 1 ∨ q = -1 →
      ((TicTacToe.check_winner s.1 = some q ↔ TicTacToe.hasLine s.1 q) ∧
       (TicTacToe.check_winner s.1 = some q →
         TicTacToe.is_terminal s = true ∧ TicTacToe.utility s q = 1))) ∧
    (∀ (n : Nat), n = 4 ∨ n = 5 → ∀ (s : ConnectFour.CState), ConnectFour.Reach n s →
      ∀ q : Int, q = 1 ∨ q = -1 →
      ((ConnectFour.check_winner n s.1 = some q ↔ ConnectFour.hasLine n s.1 q) ∧
       (ConnectFour.check_winner n s.1 = some q →
         ConnectFour.is_terminal n s = true ∧ ConnectFour.utility n s q = 1))) := by
  constructor
  · intro s hreach q hq
    refine ⟨TicTacToe.check_winner_iff_t hreach hq, fun hcw => ?_⟩
    have hterm : TicTacToe.is_terminal s = true := by
      unfold TicTacToe.is_terminal
      rw [hcw]
      simp
    refine ⟨hterm, ?_⟩
    unfold TicTacToe.utility
    rw [if_neg (by simp [hterm]), hcw]
    simp
  · intro n hn s hreach q hq
    refine ⟨ConnectFour.check_winner_iff_c hn hreach hq, fun hcw => ?_⟩
    have hterm : ConnectFour.is_terminal n s = true := by
      unfold ConnectFour.is_terminal
      rw [hcw]
      simp
    refine ⟨hterm, ?_⟩
    unfold ConnectFour.utility
    rw [if_neg (by simp [hterm]), hcw]
    simp

/-- Witness for C3: instantiated at the initial boards. -/
theorem games_C3_witness :
    ((TicTacToe.check_winner TicTacToe.initial_state.1 = some 1 ↔
        TicTacToe.hasLine TicTacToe.initial_state.1 1) ∧
     (TicTacToe.check_winner TicTacToe.initial_state.1 = some 1 →
        TicTacToe.is_terminal TicTacToe.initial_state = true ∧
        TicTacToe.utility TicTacToe.initial_state 1 = 1)) ∧
    ((ConnectFour.check_winner 4 ConnectFour.initial_state.1 = some 1 ↔
        ConnectFour.hasLine 4 ConnectFour.initial_state.1 1) ∧
     (ConnectFour.check_winner 4 ConnectFour.initial_state.1 = some 1 →
        ConnectFour.is_terminal 4 ConnectFour.initial_state = true ∧
        ConnectFour.utility 4 ConnectFour.initial_state 1 = 1)) :=
  ⟨games_C3.1 TicTacToe.initial_state TicTacToe.Reach.init 1 (Or.inl rfl),
   games_C3.2 4 (Or.inl rfl) ConnectFour.initial_state ConnectFour.Reach.init 1
     (Or.inl rfl)⟩

/-- **C4.** For every Nim state with nonzero nim-sum, `get_optimal_move`
returns the first pile in index order whose target `size XOR nim-sum` is
below its size, removing the difference; the move is legal and `next`
takes the state to nim-sum exactly 0.  For nim-sum 0 it returns `None`,
and every legal move produces a nonzero nim-sum. -/
theorem games_C4 (piles : List Nat) (pl : Int) :
    (Nim.get_nim_sum piles ≠ 0 →
      ∃ i rm : Nat, Nim.get_optimal_move (piles, pl) = some (i, rm) ∧
        i < piles.length ∧
        piles.getD i 0 ^^^ Nim.get_nim_sum piles < piles.getD i 0 ∧
        rm = piles.getD i 0 - (piles.getD i 0 ^^^ Nim.get_nim_sum piles) ∧
        (∀ j, j < i →
          ¬(piles.getD j 0 ^^^ Nim.get_nim_sum piles < piles.getD j 0)) ∧
        ((i : Int), (rm : Int)) ∈ Nim.actions (piles, pl) ∧
        Nim.next (piles, pl) ((i : Int), (rm : Int))
          = .ok (piles.set i (piles.getD i 0 ^^^ Nim.get_nim_sum piles), -pl) ∧
        Nim.get_nim_sum
          (piles.set i (piles.getD i 0 ^^^ Nim.get_nim_sum piles)) = 0) ∧
    (Nim.get_nim_sum piles = 0 →
      Nim.get_optimal_move (piles, pl) = none ∧
      ∀ a ∈ Nim.actions (piles, pl), ∀ s',
        Nim.next (piles, pl) a = .ok s' → Nim.get_nim_sum s'.1 ≠ 0) := by
  constructor
  · intro hns
    have hopt : Nim.get_optimal_move (piles, pl)
        = Nim.findMove (Nim.get_nim_sum piles) piles 0 := by
      unfold Nim.get_optimal_move
      rw [if_neg hns]
    rcases hfm : Nim.findMove (Nim.get_nim_sum piles) piles 0 with _ | ⟨i, rm⟩
    · obtain ⟨j0, hj0, hwin⟩ := Nim.exists_winning_pile hns
      exact absurd hwin (Nim.findMove_none _ piles 0 hfm j0 hj0)
    · obtain ⟨j, hj, hij, hlt, hrm, hfirst⟩ := Nim.findMove_some _ piles 0 i rm hfm
      have hi : i = j := by omega
      subst hi
      have hp : 0 < piles.getD i 0 := by omega
      have hmem : ((i : Int), (rm : Int)) ∈ Nim.actions (piles, pl) := by
        rw [Nim.mem_actions_n]
        refine ⟨i, hj, rfl, ?_, ?_⟩
        · show (1 : Int) ≤ (rm : Int)
          exact_mod_cast (by omega : 1 ≤ rm)
        · show (rm : Int) ≤ ((piles.getD i 0 : Nat) : Int)
          exact_mod_cast (by omega : rm ≤ piles.getD i 0)
      have hnext := Nim.next_ok_of_mem_n hmem
      simp only [Int.toNat_natCast] at hnext
      have htgt : piles.getD i 0 - rm
          = piles.getD i 0 ^^^ Nim.get_nim_sum piles := by omega
      rw [htgt] at hnext
      refine ⟨i, rm, by rw [hopt, hfm], hj, hlt, hrm,
        fun j' hj' => hfirst j' hj', hmem, hnext, ?_⟩
      rw [Nim.nim_sum_set piles i hj]
      rw [← Nat.xor_assoc, Nat.xor_cancel_right, Nat.xor_self]
  · intro h0
    refine ⟨by unfold Nim.get_optimal_move ; rw [if_pos h0], ?_⟩
    intro a hmem s' hnext
    obtain ⟨j, hj, h1, h2, h3⟩ := Nim.mem_actions_n.mp hmem
    have hok := Nim.next_ok_of_mem_n hmem
    rw [hok] at hnext
    have hs' : s' = ((piles, pl).1.set a.1.toNat
        ((piles, pl).1.getD a.1.toNat 0 - a.2.toNat), -(piles, pl).2) :=
      (Except.ok.inj hnext).symm
    rw [hs']
    have hjj : a.1.toNat = j := by rw [h1] ; simp
    simp only [hjj]
    rw [Nim.nim_sum_set piles j hj]
    simp only [h0, Nat.zero_xor]
    intro hxor
    rw [Nat.xor_eq_zero] at hxor
    have h3' : a.2 ≤ ((piles.getD j 0 : Nat) : Int) := h3
    have hrm1 : 1 ≤ a.2.toNat := by omega
    have hrm2 : a.2.toNat ≤ piles.getD j 0 := by omega
    omega

/-- Witness for C4: on `[1, 3, 5, 7]` (nim-sum 0) there is no
recommendation; on `[1, 2]` (nim-sum 3) there is one. -/
theorem games_C4_witness :
    Nim.get_optimal_move ([1, 3, 5, 7], 1) = none ∧
    (∃ i rm : Nat, Nim.get_optimal_move ([1, 2], 1) = some (i, rm)) := by
  constructor
  · exact ((games_C4 [1, 3, 5, 7] 1).2 (by decide)).1
  · obtain ⟨i, rm, hsome, _⟩ := (games_C4 [1, 2] 1).1 (by decide)
    exact ⟨i, rm, hsome⟩

/-- **C5.** Every run of legal moves terminates: each game has a strictly
decreasing natural measure (the current number for Halving, the number of
empty cells for Tic-Tac-Toe and Connect Four, the total stones for Nim),
so a legal run's length is bounded by the initial measure (at most 9 moves
from the initial Tic-Tac-Toe board), and a state with no legal action is
terminal, so the play cannot get stuck either. -/
theorem games_C5 :
    (∀ (s : Halving.HState) (acts : List String) (s' : Halving.HState), 0 ≤ s.1 →
      runMoves Halving.game s acts = some s' →
      acts.length + s'.1.toNat ≤ s.1.toNat ∧
      (Halving.actions s' = [] → Halving.is_terminal s' = true)) ∧
    (∀ (s : TicTacToe.TState) (acts : List (Int × Int)) (s' : TicTacToe.TState),
      TicTacToe.Reach s → runMoves TicTacToe.game s acts = some s' →
      acts.length + countZeros 3 s'.1 ≤ countZeros 3 s.1 ∧
      (TicTacToe.actions s' = [] → TicTacToe.is_terminal s' = true)) ∧
    (∀ (s : Nim.NState) (acts : List (Int × Int)) (s' : Nim.NState),
      runMoves Nim.game s acts = some s' →
      acts.length + s'.1.sum ≤ s.1.sum ∧
      (Nim.actions s' = [] → Nim.is_terminal s' = true)) ∧
    (∀ (n : Nat), n = 4 ∨ n = 5 →
      ∀ (s : ConnectFour.CState) (acts : List Int) (s' : ConnectFour.CState),
      ConnectFour.Reach n s → runMoves (ConnectFour.game n) s acts = some s' →
      acts.length + countZeros n s'.1 ≤ countZeros n s.1 ∧
      (ConnectFour.actions n s' = [] → ConnectFour.is_terminal n s' = true)) ∧
    countZeros 3 TicTacToe.initial_state.1 = 9 := by
  refine ⟨?_, ?_, ?_, ?_, by decide⟩
  · intro s acts s' hinv hrun
    have hmain := runMoves_length_le Halving.game (fun t => t.1.toNat)
      (fun t => 0 ≤ t.1)
      (fun t a hI hmem => Halving.measure_decrease_h hI hmem)
      acts s s' hinv hrun
    exact ⟨hmain.1, fun h => (Halving.actions_ne_empty_iff s').mp h⟩
  · intro s acts s' hreach hrun
    have hpres : ∀ t a, TicTacToe.Reach t → a ∈ TicTacToe.game.actions t →
        TicTacToe.Reach (TicTacToe.game.next t a) ∧
        countZeros 3 (TicTacToe.game.next t a).1 < countZeros 3 t.1 := by
      intro t a hR hmem
      obtain ⟨r, c, hr, hc, haeq, hz, hnext, hnextP⟩ := TicTacToe.next_of_mem_t hmem
      refine ⟨TicTacToe.Reach.step hR hmem, ?_⟩
      show countZeros 3 (TicTacToe.nextP t a).1 < countZeros 3 t.1
      rw [hnextP]
      have hp : t.2 ≠ 0 := by
        rcases (TicTacToe.reach_inv_t hR).2.1 with h | h <;> rw [h] <;> decide
      exact countZeros_update_lt t.1 r c hr hc hz t.2 hp
    have hmain := runMoves_length_le TicTacToe.game (fun t => countZeros 3 t.1)
      TicTacToe.Reach hpres acts s s' hreach hrun
    exact ⟨hmain.1, fun h => (TicTacToe.actions_empty_iff_t s').mp h⟩
  · intro s acts s' hrun
    have hmain := runMoves_length_le Nim.game (fun t => t.1.sum) (fun _ => True)
      (fun t a _ hmem => ⟨trivial, Nim.measure_decrease_n hmem⟩)
      acts s s' trivial hrun
    exact ⟨hmain.1, fun h => (Nim.actions_empty_iff_n s').mp h⟩
  · intro n hn s acts s' hreach hrun
    have hn0 : 0 < n := by rcases hn with rfl | rfl <;> decide
    have hpres : ∀ t a, ConnectFour.Reach n t → a ∈ (ConnectFour.game n).actions t →
        ConnectFour.Reach n ((ConnectFour.game n).next t a) ∧
        countZeros n ((ConnectFour.game n).next t a).1 < countZeros n t.1 := by
      intro t a hR hmem
      obtain ⟨c, r, hc, haeq, htop, hrn, hz, hmax, hnext, hnextP⟩ :=
        ConnectFour.next_of_mem_c hn0 hmem
      refine ⟨ConnectFour.Reach.step hR hmem, ?_⟩
      show countZeros n (ConnectFour.nextP n t a).1 < countZeros n t.1
      rw [hnextP]
      have hp : t.2 ≠ 0 := by
        rcases (ConnectFour.reach_inv_c hn hR).2.1 with h | h <;> rw [h] <;> decide
      exact countZeros_update_lt t.1 r c hrn hc hz t.2 hp
    have hmain := runMoves_length_le (ConnectFour.game n) (fun t => countZeros n t.1)
      (ConnectFour.Reach n) hpres acts s s' hreach hrun
    refine ⟨hmain.1, fun h => ?_⟩
    exact ConnectFour.actions_empty_stuck ((ConnectFour.reach_inv_c hn hmain.2).2.2.2) h

/-- Witness for C5: concrete legal runs in all four games. -/
theorem games_C5_witness :
    (["halve"] : List String).length + ((1 : Int), (-1 : Int)).1.toNat
      ≤ ((2 : Int), (1 : Int)).1.toNat ∧
    ([] : List (Int × Int)).length + countZeros 3 TicTacToe.initial_state.1
      ≤ countZeros 3 TicTacToe.initial_state.1 ∧
    ([((0 : Int), (1 : Int))] : List (Int × Int)).length
        + (([0, 2], -1) : Nim.NState).1.sum
      ≤ (([1, 2], 1) : Nim.NState).1.sum ∧
    ([] : List Int).length + countZeros 4 ConnectFour.initial_state.1
      ≤ countZeros 4 ConnectFour.initial_state.1 :=
  ⟨(games_C5.1 ((2 : Int), (1 : Int)) ["halve"] ((1 : Int), (-1 : Int))
      (by decide) (by decide)).1,
   (games_C5.2.1 TicTacToe.initial_state [] TicTacToe.initial_state
      TicTacToe.Reach.init rfl).1,
   (games_C5.2.2.1 ([1, 2], 1) [((0 : Int), (1 : Int))] ([0, 2], -1) (by decide)).1,
   (games_C5.2.2.2.1 4 (Or.inl rfl) ConnectFour.initial_state []
      ConnectFour.initial_state ConnectFour.Reach.init rfl).1⟩

/-- **C6.** Utilities are zero-sum and consistent at terminal states: in
every game one player's utility is the negation of the other's; in Halving
and Nim (terminal exactly when the count/piles hit zero) the player who
just moved — the negation of the player to move — gets +1 and the player
to move gets -1; in Tic-Tac-Toe and Connect Four a terminal board without
winner gives both players 0 (a draw). -/
theorem games_C6 :
    (∀ s : Halving.HState, Halving.is_terminal s = true → (s.2 = 1 ∨ s.2 = -1) →
      Halving.utility s 1 = - Halving.utility s (-1) ∧
      Halving.utility s (-s.2) = 1 ∧ Halving.utility s s.2 = -1) ∧
    (∀ s : Nim.NState, Nim.is_terminal s = true → (s.2 = 1 ∨ s.2 = -1) →
      Nim.utility s 1 = - Nim.utility s (-1) ∧
      Nim.utility s (-s.2) = 1 ∧ Nim.utility s s.2 = -1) ∧
    (∀ s : TicTacToe.TState, TicTacToe.is_terminal s = true →
      TicTacToe.utility s 1 = - TicTacToe.utility s (-1) ∧
      (TicTacToe.check_winner s.1 = none →
        TicTacToe.utility s 1 = 0 ∧ TicTacToe.utility s (-1) = 0)) ∧
    (∀ (n : Nat) (s : ConnectFour.CState), ConnectFour.is_terminal n s = true →
      ConnectFour.utility n s 1 = - ConnectFour.utility n s (-1) ∧
      (ConnectFour.check_winner n s.1 = none →
        ConnectFour.utility n s 1 = 0 ∧ ConnectFour.utility n s (-1) = 0)) := by
  refine ⟨?_, ?_, ?_, ?_⟩
  · rintro ⟨num, p⟩ hterm hp
    rcases hp with rfl | rfl <;>
      refine ⟨?_, ?_, ?_⟩ <;> simp [Halving.utility, hterm]
  · rintro ⟨piles, p⟩ hterm hp
    rcases hp with rfl | rfl <;>
      refine ⟨?_, ?_, ?_⟩ <;> simp [Nim.utility, hterm]
  · intro s hterm
    constructor
    · rcases hcw : TicTacToe.check_winner s.1 with _ | w
      · simp [TicTacToe.utility, hterm, hcw]
      · rcases TicTacToe.check_winner_values_t hcw with rfl | rfl <;>
          simp [TicTacToe.utility, hterm, hcw]
    · intro hcw
      constructor <;> simp [TicTacToe.utility, hterm, hcw]
  · intro n s hterm
    constructor
    · rcases hcw : ConnectFour.check_winner n s.1 with _ | w
      · simp [ConnectFour.utility, hterm, hcw]
      · rcases ConnectFour.check_winner_values_c hcw with rfl | rfl <;>
          simp [ConnectFour.utility, hterm, hcw]
    · intro hcw
      constructor <;> simp [ConnectFour.utility, hterm, hcw]

/-- Witness for C6: terminal states of each game. -/
theorem games_C6_witness :
    Halving.utility ((0 : Int), (1 : Int)) 1
        = - Halving.utility ((0 : Int), (1 : Int)) (-1) ∧
    Nim.utility (([] : List Nat), (1 : Int)) 1
        = - Nim.utility (([] : List Nat), (1 : Int)) (-1) ∧
    TicTacToe.utility (TicTacToe.drawBoard, 1) 1
        = - TicTacToe.utility (TicTacToe.drawBoard, 1) (-1) ∧
    ConnectFour.utility 4 ((fun r _ => if r = 3 then 1 else 0), 1) 1
        = - ConnectFour.utility 4 ((fun r _ => if r = 3 then 1 else 0), 1) (-1) :=
  ⟨(games_C6.1 ((0 : Int), (1 : Int)) (by decide) (Or.inl rfl)).1,
   (games_C6.2.1 (([] : List Nat), (1 : Int)) (by decide) (Or.inl rfl)).1,
   (games_C6.2.2.1 (TicTacToe.drawBoard, 1) (by decide)).1,
   (games_C6.2.2.2 4 ((fun r _ => if r = 3 then 1 else 0), 1) (by decide)).1⟩

/-- **C7.** `Game.move` validates first: an action outside `actions(state)`
raises `ValueError` before `next` is consulted, and whenever a move raises
— for any reason — the session state is left unchanged, because
validation and computation happen before the state assignment. -/
theorem games_C7 :
    (∀ (s : Halving.HState) (a : String),
      ((∃ e, Game.move Halving.actions Halving.next s a = .error e) ↔
        a ∉ Halving.actions s) ∧
      (∀ e, (Game.sessionApply Halving.actions Halving.next s a).2 = some e →
        (Game.sessionApply Halving.actions Halving.next s a).1 = s)) ∧
    (∀ (s : Nim.NState) (a : Int × Int),
      ((∃ e, Game.move Nim.actions Nim.next s a = .error e) ↔
        a ∉ Nim.actions s) ∧
      (∀ e, (Game.sessionApply Nim.actions Nim.next s a).2 = some e →
        (Game.sessionApply Nim.actions Nim.next s a).1 = s)) ∧
    (∀ (s : TicTacToe.TState) (a : Int × Int),
      ((∃ e, Game.move TicTacToe.actions TicTacToe.next s a = .error e) ↔
        a ∉ TicTacToe.actions s) ∧
      (∀ e, (Game.sessionApply TicTacToe.actions TicTacToe.next s a).2 = some e →
        (Game.sessionApply TicTacToe.actions TicTacToe.next s a).1 = s)) ∧
    (∀ (n : Nat) (s : ConnectFour.CState) (a : Int), 0 < n →
      ((∃ e, Game.move (ConnectFour.actions n) (ConnectFour.next n) s a = .error e) ↔
        a ∉ ConnectFour.actions n s) ∧
      (∀ e, (Game.sessionApply (ConnectFour.actions n) (ConnectFour.next n) s a).2
          = some e →
        (Game.sessionApply (ConnectFour.actions n) (ConnectFour.next n) s a).1 = s)) := by
  refine ⟨?_, ?_, ?_, ?_⟩
  · intro s a
    refine ⟨Game.move_error_iff _ _ ?_ s a,
      fun e h => Game.sessionApply_error_unchanged _ _ s a e h⟩
    intro t b hmem
    exact ⟨_, Halving.next_ok_of_mem_h hmem⟩
  · intro s a
    refine ⟨Game.move_error_iff _ _ ?_ s a,
      fun e h => Game.sessionApply_error_unchanged _ _ s a e h⟩
    intro t b hmem
    exact ⟨_, Nim.next_ok_of_mem_n hmem⟩
  · intro s a
    refine ⟨Game.move_error_iff _ _ ?_ s a,
      fun e h => Game.sessionApply_error_unchanged _ _ s a e h⟩
    intro t b hmem
    obtain ⟨r, c, _, _, _, _, hnext, _⟩ := TicTacToe.next_of_mem_t hmem
    exact ⟨_, hnext⟩
  · intro n s a hn
    refine ⟨Game.move_error_iff _ _ ?_ s a,
      fun e h => Game.sessionApply_error_unchanged _ _ s a e h⟩
    intro t b hmem
    obtain ⟨c, r, _, _, _, _, _, _, hnext, _⟩ := ConnectFour.next_of_mem_c hn hmem
    exact ⟨_, hnext⟩

/-- Witness for C7: playing the occupied cell `(0, 0)` twice in
Tic-Tac-Toe errors and leaves the session state unchanged. -/
theorem games_C7_witness :
    (Game.sessionApply TicTacToe.actions TicTacToe.next
        (TicTacToe.nextP TicTacToe.initial_state ((0 : Int), (0 : Int)))
        ((0 : Int), (0 : Int))).1
      = TicTacToe.nextP TicTacToe.initial_state ((0 : Int), (0 : Int)) :=
  (games_C7.2.2.1 (TicTacToe.nextP TicTacToe.initial_state ((0 : Int), (0 : Int)))
      ((0 : Int), (0 : Int))).2 PyErr.valueError (by decide)

/-- Counterexample for C8: in Tic-Tac-Toe the action `(-1, 0)` is not in
`actions(state)` on the initial board, yet `next` does not raise — the
negative index wraps around as in numpy and the move silently writes the
cell `(2, 0)`. -/
theorem games_C8_counterexample :
    ((-1 : Int), (0 : Int)) ∉ TicTacToe.actions TicTacToe.initial_state ∧
    (TicTacToe.next TicTacToe.initial_state ((-1 : Int), (0 : Int))).toOption.map
        (fun s => s.1 2 0)
      = some 1 := by
  constructor
  · decide
  · rfl

/-- **C8 (amended).** `next` raises exactly on the explicitly checked
conditions, which do not coincide with "action not in `actions(state)`":
Halving errors iff the action is neither "subtract" nor "halve" (even at
terminal states); Nim errors iff the pile index is out of range or the
removal is below 1 or above the pile; Connect Four raises `ValueError` iff
the column is out of range or full; Tic-Tac-Toe raises `IndexError` (not
`ValueError`) iff a coordinate is outside `-3..2`, and `ValueError` iff
the (possibly wrapped-around) cell is occupied — a negative coordinate in
`-3..-1` wraps silently instead of raising. -/
theorem games_C8_amended :
    (∀ (s : Halving.HState) (a : String),
      (∃ e, Halving.next s a = .error e) ↔ (a ≠ "subtract" ∧ a ≠ "halve")) ∧
    (∀ (s : Nim.NState) (a : Int × Int),
      (∃ e, Nim.next s a = .error e) ↔
        (a.1 < 0 ∨ (s.1.length : Int) ≤ a.1 ∨ a.2 < 1 ∨
          (s.1.getD a.1.toNat 0 : Int) < a.2)) ∧
    (∀ (n : Nat) (s : ConnectFour.CState) (a : Int),
      (∃ e, ConnectFour.next n s a = .error e) ↔
        (a < 0 ∨ (n : Int) ≤ a ∨ s.1 0 a.toNat ≠ 0)) ∧
    (∀ (s : TicTacToe.TState) (a : Int × Int),
      (∃ e, TicTacToe.next s a = .error e) ↔
        (TicTacToe.idx3 a.1 = none ∨ TicTacToe.idx3 a.2 = none ∨
          ∃ r c : Nat, TicTacToe.idx3 a.1 = some r ∧ TicTacToe.idx3 a.2 = some c ∧
            s.1 r c ≠ 0)) :=
  ⟨Halving.next_error_iff_h, Nim.next_error_iff_n, ConnectFour.next_error_iff_c,
   TicTacToe.next_error_iff_t⟩

/-- Counterexample for C9: `utility` does not require terminality — on the
non-terminal initial Tic-Tac-Toe board it simply returns 0, the same value
as on a genuinely drawn terminal board, rather than being restricted to
terminal states. -/
theorem games_C9_counterexample :
    TicTacToe.is_terminal TicTacToe.initial_state = false ∧
    TicTacToe.utility TicTacToe.initial_state 1 = 0 ∧
    TicTacToe.is_terminal (TicTacToe.drawBoard, 1) = true ∧
    TicTacToe.check_winner TicTacToe.drawBoard = none ∧
    TicTacToe.utility (TicTacToe.drawBoard, 1) 1 = 0 := by
  refine ⟨by decide, by decide, by decide, by decide, by decide⟩

/-- **C9 (amended).** `utility` is total: on every non-terminal state of
every game it returns 0 (the guard `if not is_terminal: return 0` comes
first), a value indistinguishable from a draw, rather than raising or
being undefined outside terminal states. -/
theorem games_C9_amended :
    (∀ (s : Halving.HState) (pl : Int), Halving.is_terminal s = false →
      Halving.utility s pl = 0) ∧
    (∀ (s : Nim.NState) (pl : Int), Nim.is_terminal s = false →
      Nim.utility s pl = 0) ∧
    (∀ (s : TicTacToe.TState) (pl : Int), TicTacToe.is_terminal s = false →
      TicTacToe.utility s pl = 0) ∧
    (∀ (n : Nat) (s : ConnectFour.CState) (pl : Int),
      ConnectFour.is_terminal n s = false → ConnectFour.utility n s pl = 0) := by
  refine ⟨?_, ?_, ?_, ?_⟩
  · intro s pl h
    simp [Halving.utility, h]
  · intro s pl h
    simp [Nim.utility, h]
  · intro s pl h
    simp [TicTacToe.utility, h]
  · intro n s pl h
    simp [ConnectFour.utility, h]

/-- Witness for C9 (amended): concrete non-terminal states. -/
theorem games_C9_amended_witness :
    Halving.utility ((5 : Int), (1 : Int)) 1 = 0 ∧
    Nim.utility ([1, 2], 1) 1 = 0 ∧
    TicTacToe.utility TicTacToe.initial_state (-1) = 0 ∧
    ConnectFour.utility 4 ConnectFour.initial_state 1 = 0 :=
  ⟨games_C9_amended.1 ((5 : Int), (1 : Int)) 1 (by decide),
   games_C9_amended.2.1 ([1, 2], 1) 1 (by decide),
   games_C9_amended.2.2.1 TicTacToe.initial_state (-1) (by decide),
   games_C9_amended.2.2.2 4 ConnectFour.initial_state 1 (by decide)⟩

/-- **C10.** The depth limit: `max_depth = None` and `max_depth = 0` both
disable the cutoff entirely (Python truthiness of `self.max_depth and
depth >= self.max_depth`), giving identical searches and identical chosen
actions, while a positive `max_depth = d` cuts the search off as soon as
`depth >= d`, returning the heuristic `utility` of the position there. -/
theorem games_C10 :
    (∀ depth : Int, Minimax.depthCut (some 0) depth = false ∧
      Minimax.depthCut none depth = false) ∧
    (∀ (S A : Type) (g : GameM S A) (pid : Int) (fuel : Nat) (s : S) (depth : Int)
      (maxing : Bool) (al be : XInt),
      Minimax.abMM g (some 0) pid fuel s depth maxing al be
        = Minimax.abMM g none pid fuel s depth maxing al be) ∧
    (∀ (S A : Type) (g : GameM S A) (pid : Int) (fuel : Nat) (s : S),
      Minimax.choose_action g (some 0) pid fuel s
        = Minimax.choose_action g none pid fuel s) ∧
    (∀ (S A : Type) (g : GameM S A) (pid : Int) (fuel : Nat) (s : S) (depth d : Int)
      (maxing : Bool) (al be : XInt), 1 ≤ d → d ≤ depth →
      Minimax.abMM g (some d) pid (fuel + 1) s depth maxing al be
        = .fin (g.utility s pid)) := by
  have hcut : ∀ depth : Int, Minimax.depthCut (some 0) depth = false := by
    intro depth
    unfold Minimax.depthCut
    simp
  refine ⟨fun depth => ⟨hcut depth, rfl⟩, ?_, ?_, ?_⟩
  · intro S A g pid fuel s depth maxing al be
    exact Minimax.abMM_congr_md g (some 0) none pid (fun dp => (hcut dp).trans rfl)
      fuel s depth maxing al be
  · intro S A g pid fuel s
    exact Minimax.choose_action_congr_md g (some 0) none pid
      (fun dp => (hcut dp).trans rfl) fuel s
  · intro S A g pid fuel s depth d maxing al be h1 h2
    have hcut' : Minimax.depthCut (some d) depth = true := by
      show (decide (d ≠ 0) && decide (d ≤ depth)) = true
      rw [decide_eq_true (by omega : d ≠ 0), decide_eq_true h2]
      rfl
    unfold Minimax.abMM
    rw [hcut', Bool.or_true, if_pos rfl]

/-- Witness for C10: with `max_depth = 1` the search at depth 1 returns
the current utility immediately. -/
theorem games_C10_witness :
    Minimax.abMM Halving.game (some 1) 1 (0 + 1) ((3 : Int), (1 : Int)) 1 true
        XInt.negInf XInt.posInf
      = XInt.fin (Halving.game.utility ((3 : Int), (1 : Int)) 1) :=
  games_C10.2.2.2 Halving.HState String Halving.game 1 0 ((3 : Int), (1 : Int)) 1 1
    true XInt.negInf XInt.posInf (by decide) (by decide)
